import Mathlib

/-! # The maze generator of `hole/maze.go`

A shallow embedding of `dig`, `find_exit`, `trace_path`, `draw` and `maze`, and
theorems about them.

Modelling decisions.

* Go `int` is modelled by `Int`. Every value the functions compute is a cell
  coordinate, a distance bounded by the number of cells, or a four-bit mask, so
  64-bit wrap-around never comes into play.
* A `[height][width]int` array is a `Field`, a function from two indices to the
  stored value. Every read and write of the source is preceded by the index test
  Go performs; an index outside the array gives `Res.panic`. Arrays are passed
  and returned by value in the source, so explicit state passing is exact.
* `rand.Shuffle` is an oracle `sh : Nat → List Int`: `sh k` is the order of
  `directions` after the `k`-th shuffle of the run. Theorems assume that every
  `sh k` is a permutation of `[north, south, west, east]`.
* Recursion and the `for d > 0` loop take a fuel argument; `Res.timeout` means
  that the fuel ran out.
* `height` and `width` are fields of `Pkg`, so that the 3x3 scenario can be
  stated; `hole` instantiates them with the constants of the source, 50 and 50.
* The bounds test of `dig` (line 31) reads the names `new_j` and `new_i`. They
  are not the locals `newj` and `newi` of lines 28-29 and `maze.go` declares
  them nowhere, so they can only be package-level integers declared outside the
  given sources. They are the fields `new_i` and `new_j` of `Pkg`, and theorems
  quantify over their values.
-/

namespace Maze

/-- Outcome of running a function of the package: a value, a run-time panic
(index out of range), or exhausted fuel. -/
inductive Res (α : Type) where
  | ok : α → Res α
  | panic : Res α
  | timeout : Res α

/-- Package-level names read by the functions of `maze.go`: the constants
`height` and `width` (lines 13-14), and the names `new_i`, `new_j` read by line 31
whose declaration is not part of the given sources. -/
structure Pkg where
  height : Nat
  width : Nat
  new_i : Int
  new_j : Int

/-- The package with the dimensions of the source (`height = 50`, `width = 50`)
and given values for the two undeclared names. -/
def hole (new_i new_j : Int) : Pkg := ⟨50, 50, new_i, new_j⟩

def north : Int := 1
def south : Int := 2
def west : Int := 4
def east : Int := 8

/-- Line 16, `var dj = map[int]int{east: 1, west: -1, north: 0, south: 0}`; a key
that is absent reads as 0. -/
def dj (d : Int) : Int :=
  if d = east then 1 else if d = west then -1 else 0

/-- Line 17, `var di = map[int]int{east: 0, west: 0, north: -1, south: 1}`. -/
def di (d : Int) : Int :=
  if d = north then -1 else if d = south then 1 else 0

/-- Line 18, `var opposite = map[int]int{east: west, west: east, north: south, south: north}`. -/
def opposite (d : Int) : Int :=
  if d = east then west else if d = west then east
  else if d = north then south else if d = south then north else 0

/-- A `[height][width]int` array. -/
abbrev Field := Int → Int → Int

/-- The zero value of a `[height][width]int` array. -/
def zeroField : Field := fun _ _ => 0

/-- The indices `[i][j]` are inside a `[height][width]int` array. -/
def inb (P : Pkg) (i j : Int) : Prop :=
  0 ≤ i ∧ i < P.height ∧ 0 ≤ j ∧ j < P.width

instance (P : Pkg) (i j : Int) : Decidable (inb P i j) := by
  unfold inb; infer_instance

/-- The array after the assignment `f[i][j] = v`. -/
def Field.set (f : Field) (i j v : Int) : Field :=
  fun a b => if a = i ∧ b = j then v else f a b

/-- The order `[north, south, west, east]` of line 22 and line 55. -/
def directions : List Int := [north, south, west, east]

/-- The `for _, d := range directions` loop of `dig` (lines 27-37), with the
recursive call of line 35 given by `self`. The state is the grid, the distance
field and the number of shuffles made so far. -/
def digLoop (P : Pkg) (self : Int → Int → Field → Field → Nat → Res (Field × Field × Nat))
    (i j : Int) : List Int → Field → Field → Nat → Res (Field × Field × Nat)
  | [], grid, dist, k => .ok (grid, dist, k)
  | d :: ds, grid, dist, k =>
    let newi := i + di d
    let newj := j + dj d
    if newj ≥ 0 ∧ P.new_j < P.width ∧ P.new_i ≥ 0 ∧ newi < P.height then
      if ¬ inb P newi newj then .panic
      else if grid newi newj = 0 then
        if ¬ inb P i j then .panic
        else
          let grid1 := grid.set i j (Int.lor (grid i j) d)
          let dist1 := dist.set newi newj (dist i j + 1)
          let grid2 := grid1.set newi newj (Int.lor (grid1 newi newj) (opposite d))
          match self newi newj grid2 dist1 k with
          | .ok (g, ds1, k1) => digLoop P self i j ds g ds1 k1
          | .panic => .panic
          | .timeout => .timeout
      else digLoop P self i j ds grid dist k
    else digLoop P self i j ds grid dist k

/-- The function `dig` (lines 21-39). `sh k` is the outcome of the `k`-th
shuffle of the run; the third component of the result counts the shuffles. -/
def dig (P : Pkg) (sh : Nat → List Int) :
    Nat → Int → Int → Field → Field → Nat → Res (Field × Field × Nat)
  | 0, _, _, _, _, _ => .timeout
  | fuel + 1, i, j, grid, dist, k =>
    digLoop P (dig P sh fuel) i j (sh k) grid dist (k + 1)

/-- The two nested loops of `find_exit` (lines 43-50) on the state
`(maxd, ei, ej)`. -/
def find_exit_scan (P : Pkg) (dist : Field) : Int × Int × Int :=
  (List.range P.height).foldl
    (fun (st : Int × Int × Int) (i : Nat) => (List.range P.width).foldl
      (fun (st : Int × Int × Int) (j : Nat) =>
        if dist i j > st.1 then (dist i j, (i : Int), (j : Int)) else st) st)
    (-1, 0, 0)

/-- The function `find_exit` (lines 41-52). -/
def find_exit (P : Pkg) (dist : Field) : Int × Int :=
  (find_exit_scan P dist).2

/-- The inner loop of `trace_path` (lines 60-70): the first neighbour, in the
order of `dirs`, that is inside the array and holds `d - 1`; `none` when the
loop ends without reaching `break`. -/
def trace_step (P : Pkg) (dist : Field) (i j d : Int) : List Int → Option (Int × Int)
  | [] => none
  | dir :: dirs =>
    let i_ := i + di dir
    let j_ := j + dj dir
    if i_ ≥ 0 ∧ i_ < P.height ∧ j_ ≥ 0 ∧ j_ < P.width then
      if dist i_ j_ = d - 1 then some (i_, j_)
      else trace_step P dist i j d dirs
    else trace_step P dist i j d dirs

/-- The loop `for d > 0` of `trace_path` (lines 59-71). When the inner loop
finds no neighbour the state is unchanged and the loop goes round again. -/
def trace_loop (P : Pkg) (dist : Field) : Nat → Int → Int → Int → Field → Res Field
  | 0, _, _, d, path => if d > 0 then .timeout else .ok path
  | fuel + 1, i, j, d, path =>
    if d > 0 then
      match trace_step P dist i j d directions with
      | some (i_, j_) => trace_loop P dist fuel i_ j_ (d - 1) (path.set i_ j_ 1)
      | none => trace_loop P dist fuel i j d path
    else .ok path

/-- The function `trace_path` (lines 54-73). -/
def trace_path (P : Pkg) (fuel : Nat) (dist : Field) (ei ej : Int) : Res Field :=
  if ¬ inb P ei ej then .panic
  else trace_loop P dist fuel ei ej (dist ei ej) (zeroField.set ei ej 1)

/-- The wall glyph of line 78. -/
def wall : String := "█"

/-- Go's `strings.Repeat` for a count that is not negative. -/
def Repeat (s : String) : Nat → String
  | 0 => ""
  | n + 1 => s ++ Repeat s n

/-- The cell glyph of `draw` (lines 92-102). -/
def draw_cell (si sj ei ej : Int) (path : Field) (track : String) (i j : Int) : String :=
  if i = si ∧ j = sj then "S"
  else if i = ei ∧ j = ej then "E"
  else if path i j = 0 then " " else track

/-- The east boundary glyph of `draw` (lines 103-111); `path[i][j+1]` is read
first, and only when the east bit of the cell is set. -/
def draw_east (P : Pkg) (grid path : Field) (track : String) (i j : Int) : Res String :=
  if Int.land (grid i j) east ≠ 0 then
    if ¬ inb P i (j + 1) then .panic
    else if path i (j + 1) ≠ 0 ∧ path i j ≠ 0 then .ok track else .ok " "
  else .ok wall

/-- The south boundary glyph of `draw` (lines 112-120); `path[i+1][j]` is read
first, and only when the south bit of the cell is set. -/
def draw_south (P : Pkg) (grid path : Field) (track : String) (i j : Int) : Res String :=
  if Int.land (grid i j) south ≠ 0 then
    if ¬ inb P (i + 1) j then .panic
    else if path (i + 1) j ≠ 0 ∧ path i j ≠ 0 then .ok track else .ok " "
  else .ok wall

/-- The loop over `j` of `draw` (lines 91-123) for row `i`, on the state
`(top, bottom)`; `js` lists the columns still to be drawn. -/
def draw_row (P : Pkg) (grid : Field) (si sj ei ej : Int) (path : Field) (track : String)
    (i : Int) : List Nat → String → String → Res (String × String)
  | [], top, bottom => .ok (top, bottom)
  | j :: js, top, bottom =>
    match draw_east P grid path track i j, draw_south P grid path track i j with
    | .ok eastboundary, .ok southboundary =>
      draw_row P grid si sj ei ej path track i js
        (top ++ (draw_cell si sj ei ej path track i j ++ eastboundary))
        (bottom ++ (southboundary ++ wall))
    | _, _ => .panic

/-- The loop over `i` of `draw` (lines 88-125) on the state `mazestr`; `is` lists
the rows still to be drawn. -/
def draw_rows (P : Pkg) (grid : Field) (si sj ei ej : Int) (path : Field) (track : String) :
    List Nat → String → Res String
  | [], mazestr => .ok mazestr
  | i :: is, mazestr =>
    match draw_row P grid si sj ei ej path track i (List.range P.width) wall wall with
    | .ok (top, bottom) =>
      draw_rows P grid si sj ei ej path track is (mazestr ++ (top ++ "\n" ++ bottom ++ "\n"))
    | _ => .panic

/-- The function `draw` (lines 75-127). -/
def draw (P : Pkg) (grid : Field) (si sj ei ej : Int) (path : Field) (draw_path : Bool) :
    Res String :=
  let track : String := if draw_path then "." else " "
  draw_rows P grid si sj ei ej path track (List.range P.height)
    (wall ++ Repeat (Repeat wall 2) P.width ++ "\n")

/-- Lines 131-139 of `maze`: the maze is dug from the zero arrays, the exit is
located and the path is traced. `sj` and `si` are the outcomes of
`rand.Intn(width)` and `rand.Intn(height)`, `sh` the outcomes of the shuffles.
The result is `(grid, dist, (ei, ej), path)`. -/
def maze_path (P : Pkg) (sh : Nat → List Int) (fuel : Nat) (sj si : Int) :
    Res (Field × Field × (Int × Int) × Field) :=
  match dig P sh fuel si sj zeroField zeroField 0 with
  | .ok (grid, dist, _) =>
    match trace_path P fuel dist (find_exit P dist).1 (find_exit P dist).2 with
    | .ok path => .ok (grid, dist, find_exit P dist, path)
    | .panic => .panic
    | .timeout => .timeout
  | .panic => .panic
  | .timeout => .timeout

/-- The function `maze` (lines 129-146): `maze_path`, then the two renderings of
lines 140-141; the result is `(args, out)`. -/
def maze (P : Pkg) (sh : Nat → List Int) (fuel : Nat) (sj si : Int) :
    Res (List String × String) :=
  match maze_path P sh fuel sj si with
  | .ok (grid, _, e, path) =>
    match draw P grid si sj e.1 e.2 path false, draw P grid si sj e.1 e.2 path true with
    | .ok mazeinput, .ok mazesolved => .ok ([mazeinput], mazesolved)
    | _, _ => .panic
  | .panic => .panic
  | .timeout => .timeout

/-! ## Notions used to state the theorems -/

/-- Cell `(a, b)` comes before cell `(i, j)` in row-major order. -/
def Proc (i j a b : Nat) : Prop := a < i ∨ (a = i ∧ b < j)

/-- Invariant of the scan of `find_exit` when the cells before `(i, j)` have been
looked at: `maxd` bounds them all, and either nothing was looked at yet, or
`(ei, ej)` is the first of them that holds `maxd`. -/
def ScanInv (P : Pkg) (dist : Field) (i j : Nat) (st : Int × Int × Int) : Prop :=
  (∀ a b : Nat, a < P.height → b < P.width → Proc i j a b → dist a b ≤ st.1) ∧
  ((st = (-1, 0, 0) ∧ ∀ a b : Nat, a < P.height → b < P.width → ¬ Proc i j a b) ∨
   (∃ a b : Nat, st.2 = ((a : Int), (b : Int)) ∧ a < P.height ∧ b < P.width ∧ Proc i j a b ∧
      st.1 = dist a b ∧
      ∀ c e : Nat, c < P.height → e < P.width → Proc a b c e → dist c e < st.1))

/-- A distance field with varied entries, none negative. -/
def sampleDist : Field := fun i j => (i * 7 + j * 3) % 11

/-- The character of `track` (lines 78-83): a dot when the path is drawn, a blank otherwise. -/
def trackGlyph (draw_path : Bool) : Char := if draw_path then '.' else ' '

/-- Glyph of cell `(i, j)`, as a character: what lines 92-102 select. -/
def cellGlyph (si sj ei ej : Int) (path : Field) (track : Char) (i j : Nat) : Char :=
  if (i : Int) = si ∧ (j : Int) = sj then 'S'
  else if (i : Int) = ei ∧ (j : Int) = ej then 'E'
  else if path i j = 0 then ' ' else track

/-- Glyph of the east boundary of cell `(i, j)`, as a character: what lines 103-111
select when `path[i][j+1]` can be read. -/
def eastGlyph (grid path : Field) (track : Char) (i j : Nat) : Char :=
  if Int.land (grid i j) east ≠ 0 then
    if path i (j + 1) ≠ 0 ∧ path i j ≠ 0 then track else ' '
  else '█'

/-- Glyph of the south boundary of cell `(i, j)`, as a character: what lines 112-120
select when `path[i+1][j]` can be read. -/
def southGlyph (grid path : Field) (track : Char) (i j : Nat) : Char :=
  if Int.land (grid i j) south ≠ 0 then
    if path (i + 1) j ≠ 0 ∧ path i j ≠ 0 then track else ' '
  else '█'

/-- The text of `top` (lines 89, 121) once row `i` is complete. -/
def topRow (P : Pkg) (grid : Field) (si sj ei ej : Int) (path : Field) (track : Char)
    (i : Nat) : List Char :=
  '█' :: (List.range P.width).flatMap
    (fun j => [cellGlyph si sj ei ej path track i j, eastGlyph grid path track i j])

/-- The text of `bottom` (lines 90, 122) once row `i` is complete. -/
def bottomRow (P : Pkg) (grid path : Field) (track : Char) (i : Nat) : List Char :=
  '█' :: (List.range P.width).flatMap (fun j => [southGlyph grid path track i j, '█'])

/-- The text rows of the picture: the opening row of line 87, then `top` and
`bottom` of every grid row. -/
def pictureRows (P : Pkg) (grid : Field) (si sj ei ej : Int) (path : Field) (track : Char) :
    List (List Char) :=
  List.replicate (2 * P.width + 1) '█' ::
    (List.range P.height).flatMap
      (fun i => [topRow P grid si sj ei ej path track i, bottomRow P grid path track i])

/-- The picture as one text: every row followed by a newline. -/
def picture (P : Pkg) (grid : Field) (si sj ei ej : Int) (path : Field) (track : Char) :
    List Char :=
  (pictureRows P grid si sj ei ej path track).flatMap (fun r => r ++ ['\n'])

/-- Drawing cell `(i, j)` reads `path` inside the array only: a set east bit needs a
column `j + 1`, a set south bit a row `i + 1`. -/
def cellDrawable (P : Pkg) (grid : Field) (i j : Nat) : Prop :=
  (Int.land (grid i j) east ≠ 0 → j + 1 < P.width) ∧
  (Int.land (grid i j) south ≠ 0 → i + 1 < P.height)

/-- Every cell of the grid can be drawn without an index out of range. -/
def drawable (P : Pkg) (grid : Field) : Prop :=
  ∀ i j : Nat, i < P.height → j < P.width → cellDrawable P grid i j

/-- A dot becomes a blank, every other character stays. -/
def blankChar (c : Char) : Char := if c = '.' then ' ' else c

/-- The text with every `.` replaced by a blank. -/
def blankTrack (s : String) : String := ⟨s.data.map blankChar⟩

/-- A grid with a few open passages: cell `(0, 0)` is open to the east and to the
south, `(0, 1)` to the west and `(1, 0)` to the north. -/
def sampleGrid : Field :=
  fun i j => if i = 0 ∧ j = 0 then 10 else if i = 0 ∧ j = 1 then 4 else if i = 1 ∧ j = 0 then 1 else 0

/-- A path field that marks the cells `(0, 0)` and `(0, 1)`. -/
def samplePath : Field :=
  fun i j => if i = 0 ∧ (j = 0 ∨ j = 1) then 1 else 0

/-- The two undeclared names pass the part of the bounds test of line 31 that reads
them: `new_j < width && new_i >= 0`. -/
def namesPass (P : Pkg) : Prop := P.new_j < P.width ∧ P.new_i ≥ 0

/-- Every cell carved in `g` is carved in `g1`. -/
def Keeps (g g1 : Field) : Prop := ∀ a b, g a b ≠ 0 → g1 a b ≠ 0

/-- If cell `(a, b)` is carved between `g` and `g1`, it lies below row 0 and the cell
north of it is carved in `g1`. -/
def Sealed (g g1 : Field) (a b : Int) : Prop :=
  g a b = 0 → g1 a b ≠ 0 → 1 ≤ a ∧ g1 (a - 1) b ≠ 0

/-- Number of cells of the grid that are not carved yet. -/
def zeros (P : Pkg) (g : Field) : Nat :=
  ((Finset.range P.height ×ˢ Finset.range P.width).filter
    (fun c : Nat × Nat => g c.1 c.2 = 0)).card

/-- The shuffle outcome of the 3x3 scenario: every call gets the order
`[east, south, west, north]`. -/
def eastFirst : Nat → List Int := fun _ => [east, south, west, north]

/-- The shuffle outcome that leaves `directions` in the order of line 22 at every
call: north is tried first. -/
def northFirst : Nat → List Int := fun _ => directions

/-- The map literal of line 16, `map[int]int{east: 1, west: -1, north: 0, south: 0}`,
as its list of entries. -/
def dj_table : List (Int × Int) := [(east, 1), (west, -1), (north, 0), (south, 0)]

/-- The map literal of line 17, `map[int]int{east: 0, west: 0, north: -1, south: 1}`. -/
def di_table : List (Int × Int) := [(east, 0), (west, 0), (north, -1), (south, 1)]

/-- The map literal of line 18,
`map[int]int{east: west, west: east, north: south, south: north}`. -/
def opposite_table : List (Int × Int) :=
  [(east, west), (west, east), (north, south), (south, north)]

/-- Go's `m[k]` on a `map[int]int`: the value of the entry with key `k`, and 0 when
the map has no such entry. -/
def mapGet (m : List (Int × Int)) (k : Int) : Int := (m.lookup k).getD 0

/-- The loop `for d > 0` of `trace_path` as `trace_loop` runs it, returning next to
the path field the cell `(i, j)` the walk stands on when the loop ends and the
number of times the loop body ran. -/
def trace_walk (P : Pkg) (dist : Field) :
    Nat → Int → Int → Int → Field → Nat → Res (Field × Int × Int × Nat)
  | 0, i, j, d, path, n => if d > 0 then .timeout else .ok (path, i, j, n)
  | fuel + 1, i, j, d, path, n =>
    if d > 0 then
      match trace_step P dist i j d directions with
      | some (i_, j_) => trace_walk P dist fuel i_ j_ (d - 1) (path.set i_ j_ 1) (n + 1)
      | none => trace_walk P dist fuel i j d path (n + 1)
    else .ok (path, i, j, n)

/-- The function `trace_path` with the final cell and the iteration count of its
loop next to the path field. -/
def trace_path_walk (P : Pkg) (fuel : Nat) (dist : Field) (ei ej : Int) :
    Res (Field × Int × Int × Nat) :=
  if ¬ inb P ei ej then .panic
  else trace_walk P dist fuel ei ej (dist ei ej) (zeroField.set ei ej 1) 0

/-- The result with `f` applied to its value. -/
def Res.map {α β : Type} (f : α → β) : Res α → Res β
  | .ok a => .ok (f a)
  | .panic => .panic
  | .timeout => .timeout

/-- Every cell of the grid that holds a positive distance `d` has, in one of the
four directions, a neighbour inside the grid that holds `d - 1`. -/
def Downhill (P : Pkg) (dist : Field) : Prop :=
  ∀ i j, inb P i j → 0 < dist i j →
    ∃ dir ∈ directions, inb P (i + di dir) (j + dj dir) ∧
      dist (i + di dir) (j + dj dir) = dist i j - 1

/-- A distance field whose cell `(0, 0)` holds 2 while every other cell holds 0: no
neighbour of `(0, 0)` holds 1. -/
def stuckDist : Field := fun i j => if i = 0 ∧ j = 0 then 2 else 0

/-- The distance field of the walks that only go north and west: cell `(i, j)`
holds `i + j`. -/
def slopeDist : Field := fun i j => i + j

/-- The grid after lines 32 and 34: `grid[i][j] |= d`, then
`grid[newi][newj] |= opposite[d]` for the neighbour of `(i, j)` in direction `d`. -/
def carve (grid : Field) (i j d : Int) : Field :=
  (grid.set i j (Int.lor (grid i j) d)).set (i + di d) (j + dj d)
    (Int.lor ((grid.set i j (Int.lor (grid i j) d)) (i + di d) (j + dj d)) (opposite d))

/-- Passages come in matching pairs: every mask of the grid is made of the four
direction bits only, and a cell has the bit of a direction exactly when its
neighbour in that direction is inside the grid and has the opposite bit. -/
def Matching (P : Pkg) (g : Field) : Prop :=
  ∀ i j, inb P i j → (0 ≤ g i j ∧ g i j < 16) ∧
    ∀ dir ∈ directions, (Int.land (g i j) dir ≠ 0 ↔
      (inb P (i + di dir) (j + dj dir) ∧
        Int.land (g (i + di dir) (j + dj dir)) (opposite dir) ≠ 0))

/-- A 50x50 grid in which every cell is already carved except `(5, 4)` and `(5, 5)`:
each cell of an even column is open to the east and its eastern neighbour is
open to the west. -/
def pairedGrid : Field :=
  fun i j => if i = 5 ∧ (j = 4 ∨ j = 5) then 0 else if j % 2 = 0 then east else west

/-- Every cell of the grid that holds a positive distance `d` has exactly one
direction in which the neighbour is inside the grid and holds `d - 1`, and the
passage to that neighbour is open on both sides. -/
def UniqueDownhill (P : Pkg) (g d : Field) : Prop :=
  ∀ i j, inb P i j → 0 < d i j →
    ∃ dir ∈ directions,
      (inb P (i + di dir) (j + dj dir) ∧ d (i + di dir) (j + dj dir) = d i j - 1 ∧
        Int.land (g i j) dir ≠ 0 ∧
        Int.land (g (i + di dir) (j + dj dir)) (opposite dir) ≠ 0) ∧
      ∀ dir2 ∈ directions, inb P (i + di dir2) (j + dj dir2) →
        d (i + di dir2) (j + dj dir2) = d i j - 1 → dir2 = dir

/-- Whenever the inner loop of `trace_path`, standing on a cell of the grid with the
tracked distance equal to the positive distance of that cell, picks a
neighbour, the passage between the two cells is open on both sides. -/
def StepsThroughPassages (P : Pkg) (g d : Field) : Prop :=
  ∀ i j a b, inb P i j → 0 < d i j →
    trace_step P d i j (d i j) directions = some (a, b) →
    ∃ dir ∈ directions, a = i + di dir ∧ b = j + dj dir ∧
      Int.land (g i j) dir ≠ 0 ∧ Int.land (g a b) (opposite dir) ≠ 0

/-- The loop `for d > 0` of `trace_path` as `trace_loop` runs it, returning the cells
the walk stood on, in order, the exit first. -/
def trace_cells (P : Pkg) (dist : Field) :
    Nat → Int → Int → Int → List (Int × Int) → Res (List (Int × Int))
  | 0, _, _, d, cells => if d > 0 then .timeout else .ok cells
  | fuel + 1, i, j, d, cells =>
    if d > 0 then
      match trace_step P dist i j d directions with
      | some (i_, j_) => trace_cells P dist fuel i_ j_ (d - 1) (cells ++ [(i_, j_)])
      | none => trace_cells P dist fuel i j d cells
    else .ok cells

/-- The function `trace_path`, returning the cells of the traced path in the order
the walk reaches them instead of the path field. -/
def trace_path_cells (P : Pkg) (fuel : Nat) (dist : Field) (ei ej : Int) :
    Res (List (Int × Int)) :=
  if ¬ inb P ei ej then .panic
  else trace_cells P dist fuel ei ej (dist ei ej) [(ei, ej)]

/-- Cells `a` and `b` follow one another, in either order, in the list of cells. -/
def Consecutive (cells : List (Int × Int)) (a b : Int × Int) : Prop :=
  ∃ k, (cells[k]? = some a ∧ cells[k + 1]? = some b) ∨
    (cells[k]? = some b ∧ cells[k + 1]? = some a)

/-- The character at text row `r` and column `c` of a picture given by its rows. -/
def glyphAt (rows : List (List Char)) (r c : Nat) : Option Char :=
  (rows[r]?).bind (fun row => row[c]?)

/-- The distance field of the corridor of the 3x3 scenario, in the top-left block of
the arrays: row 0 holds 0, 1, 2, row 1 holds 7, 8, 3 and row 2 holds 6, 5, 4;
every other cell holds 0. -/
def corridorDist : Field :=
  fun i j =>
    if i = 0 ∧ j = 1 then 1 else if i = 0 ∧ j = 2 then 2
    else if i = 1 ∧ j = 2 then 3 else if i = 2 ∧ j = 2 then 4
    else if i = 2 ∧ j = 1 then 5 else if i = 2 ∧ j = 0 then 6
    else if i = 1 ∧ j = 0 then 7 else if i = 1 ∧ j = 1 then 8 else 0

/-! ## Theorems -/

/-! ### `find_exit` -/

theorem scanInv_step (P : Pkg) (dist : Field) (hnn : ∀ a b : Nat, a < P.height → b < P.width → 0 ≤ dist a b)
    (i j : Nat) (hi : i < P.height) (hj : j < P.width) (st : Int × Int × Int)
    (h : ScanInv P dist i j st) :
    ScanInv P dist i (j + 1) (if dist i j > st.1 then (dist i j, (i : Int), (j : Int)) else st) := by
  obtain ⟨h1, h2⟩ := h
  by_cases hgt : dist i j > st.1
  · rw [if_pos hgt]
    refine ⟨?_, Or.inr ⟨i, j, rfl, hi, hj, ?_, rfl, ?_⟩⟩
    · intro a b ha hb hp
      by_cases hab : a = i ∧ b = j
      · obtain ⟨rfl, rfl⟩ := hab; exact le_refl _
      · have : Proc i j a b := by unfold Proc at hp ⊢; omega
        have := h1 a b ha hb this
        show dist a b ≤ dist i j
        omega
    · unfold Proc; omega
    · intro c e hc he hp
      have := h1 c e hc he hp
      show dist c e < dist i j
      omega
  · rw [if_neg hgt]
    have hle : dist i j ≤ st.1 := not_lt.mp hgt
    refine ⟨?_, ?_⟩
    · intro a b ha hb hp
      by_cases hab : a = i ∧ b = j
      · obtain ⟨rfl, rfl⟩ := hab; exact hle
      · exact h1 a b ha hb (by unfold Proc at hp ⊢; omega)
    · rcases h2 with ⟨hst, _⟩ | ⟨a, b, he, ha, hb, hp, hm, hlt⟩
      · exfalso
        have := hnn i j hi hj
        rw [hst] at hle
        simp at hle
        omega
      · exact Or.inr ⟨a, b, he, ha, hb, by unfold Proc at hp ⊢; omega, hm, hlt⟩

theorem scanInv_row (P : Pkg) (dist : Field) (hnn : ∀ a b : Nat, a < P.height → b < P.width → 0 ≤ dist a b)
    (i : Nat) (hi : i < P.height) (n : Nat) (hn : n ≤ P.width) (st : Int × Int × Int)
    (h : ScanInv P dist i 0 st) :
    ScanInv P dist i n ((List.range n).foldl
      (fun (st : Int × Int × Int) (j : Nat) =>
        if dist i j > st.1 then (dist i j, (i : Int), (j : Int)) else st) st) := by
  induction n with
  | zero => simpa using h
  | succ n ih =>
    rw [List.range_succ, List.foldl_append]
    exact scanInv_step P dist hnn i n hi (by omega) _ (ih (by omega))

theorem scanInv_next (P : Pkg) (dist : Field) (i : Nat) (st : Int × Int × Int)
    (h : ScanInv P dist i P.width st) : ScanInv P dist (i + 1) 0 st := by
  obtain ⟨h1, h2⟩ := h
  refine ⟨fun a b ha hb hp => h1 a b ha hb (by unfold Proc at hp ⊢; omega), ?_⟩
  rcases h2 with ⟨hst, hno⟩ | ⟨a, b, he, ha, hb, hp, hm, hlt⟩
  · exact Or.inl ⟨hst, fun a b ha hb hp => hno a b ha hb (by unfold Proc at hp ⊢; omega)⟩
  · exact Or.inr ⟨a, b, he, ha, hb, by unfold Proc at hp ⊢; omega, hm, hlt⟩

theorem scanInv_all (P : Pkg) (dist : Field) (hnn : ∀ a b : Nat, a < P.height → b < P.width → 0 ≤ dist a b)
    (n : Nat) (hn : n ≤ P.height) :
    ScanInv P dist n 0 ((List.range n).foldl
      (fun (st : Int × Int × Int) (i : Nat) => (List.range P.width).foldl
        (fun (st : Int × Int × Int) (j : Nat) =>
          if dist i j > st.1 then (dist i j, (i : Int), (j : Int)) else st) st)
      (-1, 0, 0)) := by
  induction n with
  | zero =>
    refine ⟨fun a b _ _ hp => ?_, Or.inl ⟨rfl, fun a b _ _ hp => ?_⟩⟩ <;>
      (unfold Proc at hp; omega)
  | succ n ih =>
    rw [List.range_succ, List.foldl_append]
    exact scanInv_next P dist n _ (scanInv_row P dist hnn n (by omega) _ le_rfl _ (ih (by omega)))

theorem find_exit_spec (P : Pkg) (dist : Field) (hh : 0 < P.height) (hw : 0 < P.width)
    (hnn : ∀ i j, inb P i j → 0 ≤ dist i j) :
    inb P (find_exit P dist).1 (find_exit P dist).2 ∧
    (∀ i j, inb P i j → dist i j ≤ dist (find_exit P dist).1 (find_exit P dist).2) ∧
    (∀ i j, inb P i j →
      (i < (find_exit P dist).1 ∨ (i = (find_exit P dist).1 ∧ j < (find_exit P dist).2)) →
      dist i j < dist (find_exit P dist).1 (find_exit P dist).2) := by
  have hnn1 : ∀ a b : Nat, a < P.height → b < P.width → 0 ≤ dist a b := fun a b ha hb =>
    hnn a b ⟨by omega, by omega, by omega, by omega⟩
  have key := scanInv_all P dist hnn1 P.height le_rfl
  obtain ⟨h1, h2⟩ := key
  rcases h2 with ⟨_, hno⟩ | ⟨a, b, he, ha, hb, hp, hm, hlt⟩
  · exact absurd (by unfold Proc; omega) (hno 0 0 hh hw)
  · have e1 : (find_exit P dist).1 = a := congrArg Prod.fst he
    have e2 : (find_exit P dist).2 = b := congrArg Prod.snd he
    rw [e1, e2]
    refine ⟨⟨by omega, by omega, by omega, by omega⟩, ?_, ?_⟩
    · intro i j ⟨hi0, hi1, hj0, hj1⟩
      have := h1 i.toNat j.toNat (by omega) (by omega) (by unfold Proc; omega)
      rw [Int.toNat_of_nonneg hi0, Int.toNat_of_nonneg hj0] at this
      rw [← hm]; exact this
    · intro i j ⟨hi0, hi1, hj0, hj1⟩ hlex
      have := hlt i.toNat j.toNat (by omega) (by omega) (by unfold Proc; omega)
      rw [Int.toNat_of_nonneg hi0, Int.toNat_of_nonneg hj0] at this
      rw [← hm]; exact this

/-- C4: on a distance field without negative entries (and a grid with at least one
cell), `find_exit` returns a cell inside the grid whose distance is at least
that of every cell and strictly greater than that of every cell before it in
row-major order: the first row-major cell holding the maximum. -/
theorem find_exit_first_max (P : Pkg) (dist : Field) (hh : 0 < P.height) (hw : 0 < P.width)
    (hnn : ∀ i j, inb P i j → 0 ≤ dist i j) :
    inb P (find_exit P dist).1 (find_exit P dist).2 ∧
    (∀ i j, inb P i j → dist i j ≤ dist (find_exit P dist).1 (find_exit P dist).2) ∧
    (∀ i j, inb P i j →
      (i < (find_exit P dist).1 ∨ (i = (find_exit P dist).1 ∧ j < (find_exit P dist).2)) →
      dist i j < dist (find_exit P dist).1 (find_exit P dist).2) :=
  find_exit_spec P dist hh hw hnn

theorem find_exit_first_max_witness :
    (0 < (hole 0 0).height ∧ 0 < (hole 0 0).width ∧
      ∀ i j, inb (hole 0 0) i j → 0 ≤ sampleDist i j) ∧
    (inb (hole 0 0) (find_exit (hole 0 0) sampleDist).1 (find_exit (hole 0 0) sampleDist).2 ∧
    (∀ i j, inb (hole 0 0) i j → sampleDist i j ≤
      sampleDist (find_exit (hole 0 0) sampleDist).1 (find_exit (hole 0 0) sampleDist).2) ∧
    (∀ i j, inb (hole 0 0) i j →
      (i < (find_exit (hole 0 0) sampleDist).1 ∨
        (i = (find_exit (hole 0 0) sampleDist).1 ∧ j < (find_exit (hole 0 0) sampleDist).2)) →
      sampleDist i j <
        sampleDist (find_exit (hole 0 0) sampleDist).1 (find_exit (hole 0 0) sampleDist).2)) :=
  ⟨⟨by decide, by decide, fun i j _ => Int.emod_nonneg _ (by decide)⟩,
    find_exit_first_max (hole 0 0) sampleDist (by decide) (by decide)
      (fun i j _ => Int.emod_nonneg _ (by decide))⟩

/-! ### `draw` -/

theorem track_singleton (dp : Bool) :
    (if dp then "." else " " : String) = String.singleton (trackGlyph dp) := by
  cases dp <;> rfl

theorem draw_cell_eq (si sj ei ej : Int) (path : Field) (c : Char) (i j : Nat) :
    draw_cell si sj ei ej path (String.singleton c) i j =
      String.singleton (cellGlyph si sj ei ej path c i j) := by
  unfold draw_cell cellGlyph
  split_ifs <;> rfl

theorem draw_east_ok (P : Pkg) (grid path : Field) (c : Char) (i j : Nat) (hi : i < P.height)
    (h : Int.land (grid i j) east ≠ 0 → j + 1 < P.width) :
    draw_east P grid path (String.singleton c) i j =
      .ok (String.singleton (eastGlyph grid path c i j)) := by
  unfold draw_east eastGlyph
  by_cases hE : Int.land (grid i j) east ≠ 0
  · have hin : inb P i ((j : Int) + 1) := by have := h hE; unfold inb; omega
    rw [if_pos hE, if_pos hE, if_neg (not_not.mpr hin)]
    split_ifs <;> rfl
  · rw [if_neg hE, if_neg hE]; rfl

theorem draw_south_ok (P : Pkg) (grid path : Field) (c : Char) (i j : Nat) (hj : j < P.width)
    (h : Int.land (grid i j) south ≠ 0 → i + 1 < P.height) :
    draw_south P grid path (String.singleton c) i j =
      .ok (String.singleton (southGlyph grid path c i j)) := by
  unfold draw_south southGlyph
  by_cases hS : Int.land (grid i j) south ≠ 0
  · have hin : inb P ((i : Int) + 1) j := by have := h hS; unfold inb; omega
    rw [if_pos hS, if_pos hS, if_neg (not_not.mpr hin)]
    split_ifs <;> rfl
  · rw [if_neg hS, if_neg hS]; rfl

theorem draw_east_panic (P : Pkg) (grid path : Field) (t : String) (i j : Nat)
    (h1 : Int.land (grid i j) east ≠ 0) (h2 : ¬ j + 1 < P.width) :
    draw_east P grid path t i j = .panic := by
  unfold draw_east
  have hin : ¬ inb P i ((j : Int) + 1) := by unfold inb; omega
  rw [if_pos h1, if_pos hin]

theorem draw_south_panic (P : Pkg) (grid path : Field) (t : String) (i j : Nat)
    (h1 : Int.land (grid i j) south ≠ 0) (h2 : ¬ i + 1 < P.height) :
    draw_south P grid path t i j = .panic := by
  unfold draw_south
  have hin : ¬ inb P ((i : Int) + 1) j := by unfold inb; omega
  rw [if_pos h1, if_pos hin]

theorem draw_row_ok (P : Pkg) (grid : Field) (si sj ei ej : Int) (path : Field) (c : Char)
    (i : Nat) (hi : i < P.height) (js : List Nat) :
    ∀ (top bottom : String), (∀ j ∈ js, j < P.width ∧ cellDrawable P grid i j) →
    draw_row P grid si sj ei ej path (String.singleton c) i js top bottom =
      .ok (⟨top.data ++ js.flatMap
              (fun j => [cellGlyph si sj ei ej path c i j, eastGlyph grid path c i j])⟩,
           ⟨bottom.data ++ js.flatMap (fun j => [southGlyph grid path c i j, '█'])⟩) := by
  induction js with
  | nil => intro top bottom _; simp [draw_row]
  | cons j js ih =>
    intro top bottom h
    obtain ⟨hj, he, hs⟩ := h j (List.mem_cons_self _ _)
    unfold draw_row
    rw [draw_east_ok P grid path c i j hi he, draw_south_ok P grid path c i j hj hs]
    simp only
    rw [ih _ _ (fun x hx => h x (List.mem_cons_of_mem _ hx)), draw_cell_eq]
    simp [String.singleton, wall]

theorem draw_row_panic (P : Pkg) (grid : Field) (si sj ei ej : Int) (path : Field) (t : String)
    (i : Nat) (js : List Nat) :
    ∀ (top bottom : String), (∃ j ∈ js, ¬ cellDrawable P grid i j) →
    draw_row P grid si sj ei ej path t i js top bottom = .panic := by
  induction js with
  | nil => intro _ _ h; simp at h
  | cons j js ih =>
    intro top bottom h
    unfold draw_row
    by_cases hc : cellDrawable P grid i j
    · have hrest : ∃ x ∈ js, ¬ cellDrawable P grid i x := by
        obtain ⟨x, hx, hnx⟩ := h
        rcases List.mem_cons.mp hx with rfl | hx
        · exact absurd hc hnx
        · exact ⟨x, hx, hnx⟩
      cases draw_east P grid path t i j <;> cases draw_south P grid path t i j <;>
        first | rfl | exact ih _ _ hrest
    · unfold cellDrawable at hc
      by_cases h1 : Int.land (grid i j) east ≠ 0 → j + 1 < P.width
      · have h2 : ¬ (Int.land (grid i j) south ≠ 0 → i + 1 < P.height) := fun h2 => hc ⟨h1, h2⟩
        push_neg at h2
        rw [draw_south_panic P grid path t i j h2.1 (by omega)]
        cases draw_east P grid path t i j <;> rfl
      · push_neg at h1
        rw [draw_east_panic P grid path t i j h1.1 (by omega)]

theorem draw_rows_ok (P : Pkg) (grid : Field) (si sj ei ej : Int) (path : Field) (c : Char)
    (rs : List Nat) :
    ∀ (mazestr : String), (∀ i ∈ rs, i < P.height ∧ ∀ j, j < P.width → cellDrawable P grid i j) →
    draw_rows P grid si sj ei ej path (String.singleton c) rs mazestr =
      .ok ⟨mazestr.data ++ (rs.flatMap (fun i =>
        [topRow P grid si sj ei ej path c i, bottomRow P grid path c i])).flatMap
          (fun r => r ++ ['\n'])⟩ := by
  induction rs with
  | nil => intro m _; simp [draw_rows]
  | cons i rs ih =>
    intro m h
    obtain ⟨hi, hc⟩ := h i (List.mem_cons_self _ _)
    unfold draw_rows
    rw [draw_row_ok P grid si sj ei ej path c i hi (List.range P.width) wall wall
      (fun j hj => ⟨List.mem_range.mp hj, hc j (List.mem_range.mp hj)⟩)]
    simp only
    rw [ih _ (fun x hx => h x (List.mem_cons_of_mem _ hx))]
    simp [topRow, bottomRow, wall]

theorem draw_rows_panic (P : Pkg) (grid : Field) (si sj ei ej : Int) (path : Field) (t : String)
    (rs : List Nat) :
    ∀ (mazestr : String), (∃ i ∈ rs, ∃ j, j < P.width ∧ ¬ cellDrawable P grid i j) →
    draw_rows P grid si sj ei ej path t rs mazestr = .panic := by
  induction rs with
  | nil => intro _ h; simp at h
  | cons i rs ih =>
    intro m h
    unfold draw_rows
    by_cases hc : ∃ j, j < P.width ∧ ¬ cellDrawable P grid i j
    · obtain ⟨j, hj, hn⟩ := hc
      rw [draw_row_panic P grid si sj ei ej path t i (List.range P.width) wall wall
        ⟨j, List.mem_range.mpr hj, hn⟩]
    · have hrest : ∃ x ∈ rs, ∃ j, j < P.width ∧ ¬ cellDrawable P grid x j := by
        obtain ⟨x, hx, hnx⟩ := h
        rcases List.mem_cons.mp hx with rfl | hx
        · exact absurd hnx hc
        · exact ⟨x, hx, hnx⟩
      cases draw_row P grid si sj ei ej path t i (List.range P.width) wall wall with
      | ok tb => exact ih _ hrest
      | panic => rfl
      | timeout => rfl

theorem Repeat_data (s : String) (n : Nat) :
    (Repeat s n).data = (List.replicate n s.data).flatten := by
  induction n with
  | zero => rfl
  | succ n ih => simp [Repeat, ih, List.replicate_succ]

theorem first_row_data (w : Nat) :
    (wall ++ Repeat (Repeat wall 2) w ++ "\n").data = List.replicate (2 * w + 1) '█' ++ ['\n'] := by
  have h2 : (Repeat wall 2).data = ['█', '█'] := rfl
  have h3 : ∀ n, (List.replicate n ['█', '█']).flatten = List.replicate (2 * n) '█' := by
    intro n
    induction n with
    | zero => rfl
    | succ n ih => simp [List.replicate_succ, ih, Nat.mul_succ]
  rw [String.data_append, String.data_append, Repeat_data, h2, h3, List.replicate_succ]
  rfl

theorem draw_ok (P : Pkg) (grid : Field) (si sj ei ej : Int) (path : Field) (dp : Bool)
    (h : drawable P grid) :
    draw P grid si sj ei ej path dp =
      .ok ⟨picture P grid si sj ei ej path (trackGlyph dp)⟩ := by
  unfold draw
  simp only [track_singleton]
  rw [draw_rows_ok P grid si sj ei ej path (trackGlyph dp) (List.range P.height) _
    (fun i hi => ⟨List.mem_range.mp hi, fun j hj => h i j (List.mem_range.mp hi) hj⟩)]
  rw [first_row_data]
  simp [picture, pictureRows]

theorem draw_panic (P : Pkg) (grid : Field) (si sj ei ej : Int) (path : Field) (dp : Bool)
    (h : ¬ drawable P grid) :
    draw P grid si sj ei ej path dp = .panic := by
  unfold draw
  unfold drawable at h
  push_neg at h
  obtain ⟨i, j, hi, hj, hn⟩ := h
  exact draw_rows_panic P grid si sj ei ej path _ (List.range P.height) _
    ⟨i, List.mem_range.mpr hi, j, hj, hn⟩

theorem sampleGrid_drawable : drawable (hole 0 0) sampleGrid := by
  intro i j hi hj
  have h50 : (hole 0 0).height = 50 ∧ (hole 0 0).width = 50 := ⟨rfl, rfl⟩
  unfold cellDrawable sampleGrid
  split_ifs with h1 h2 h3
  · omega
  · refine ⟨fun h => absurd (by decide) h, fun h => absurd (by decide) h⟩
  · refine ⟨fun h => absurd (by decide) h, fun h => absurd (by decide) h⟩
  · refine ⟨fun h => absurd (by decide) h, fun h => absurd (by decide) h⟩

theorem draw_ok_inv (P : Pkg) (grid : Field) (si sj ei ej : Int) (path : Field) (dp : Bool)
    (s : String) (h : draw P grid si sj ei ej path dp = .ok s) :
    drawable P grid ∧ s = ⟨picture P grid si sj ei ej path (trackGlyph dp)⟩ := by
  by_cases hd : drawable P grid
  · rw [draw_ok P grid si sj ei ej path dp hd] at h
    exact ⟨hd, (Res.ok.inj h).symm⟩
  · rw [draw_panic P grid si sj ei ej path dp hd] at h
    cases h

theorem blank_cellGlyph (si sj ei ej : Int) (path : Field) (i j : Nat) :
    blankChar (cellGlyph si sj ei ej path '.' i j) = cellGlyph si sj ei ej path ' ' i j := by
  unfold cellGlyph blankChar
  split_ifs <;> first | rfl | (exfalso; revert ‹_›; decide)

theorem blank_eastGlyph (grid path : Field) (i j : Nat) :
    blankChar (eastGlyph grid path '.' i j) = eastGlyph grid path ' ' i j := by
  unfold eastGlyph blankChar
  split_ifs <;> first | rfl | (exfalso; revert ‹_›; decide)

theorem blank_southGlyph (grid path : Field) (i j : Nat) :
    blankChar (southGlyph grid path '.' i j) = southGlyph grid path ' ' i j := by
  unfold southGlyph blankChar
  split_ifs <;> first | rfl | (exfalso; revert ‹_›; decide)

theorem blank_picture (P : Pkg) (grid : Field) (si sj ei ej : Int) (path : Field) :
    (picture P grid si sj ei ej path '.').map blankChar = picture P grid si sj ei ej path ' ' := by
  have hw : blankChar '█' = '█' := by decide
  have hn : blankChar '\n' = '\n' := by decide
  simp [picture, pictureRows, topRow, bottomRow, List.map_flatMap, List.flatMap_assoc,
    blank_cellGlyph, blank_eastGlyph, blank_southGlyph, hw, hn]

theorem blankChar_ne_dot (c : Char) : blankChar c ≠ '.' := by
  unfold blankChar
  split_ifs with h
  · decide
  · exact h

theorem blankChar_eq_iff (c x : Char) (hc : c ∈ ['█', 'S', 'E', '\n']) :
    blankChar x = c ↔ x = c := by
  have h1 : c ≠ '.' ∧ c ≠ ' ' := by
    simp only [List.mem_cons, List.mem_singleton, List.not_mem_nil, or_false] at hc
    rcases hc with rfl | rfl | rfl | rfl <;> decide
  unfold blankChar
  split_ifs with h
  · constructor
    · intro h2; exact absurd h2.symm h1.2
    · intro h2; exact absurd (h ▸ h2).symm h1.1 
  · exact Iff.rfl

/-- C5: when `draw` returns the solved rendering `s`, it returns for the same
arguments in plain mode exactly `s` with every `.` replaced by a blank; that
text has no `.`, and the two renderings hold a wall, `S`, `E` or newline at
the same positions. -/
theorem draw_plain_eq_solved_blanked (P : Pkg) (grid : Field) (si sj ei ej : Int) (path : Field)
    (s : String) (h : draw P grid si sj ei ej path true = .ok s) :
    draw P grid si sj ei ej path false = .ok (blankTrack s) ∧
    '.' ∉ (blankTrack s).data ∧
    ∀ (k : Nat) (c : Char), c ∈ ['█', 'S', 'E', '\n'] →
      ((blankTrack s).data[k]? = some c ↔ s.data[k]? = some c) := by
  obtain ⟨hd, rfl⟩ := draw_ok_inv P grid si sj ei ej path true s h
  refine ⟨?_, ?_, ?_⟩
  · rw [draw_ok P grid si sj ei ej path false hd]
    show _ = Res.ok (String.mk _)
    rw [show trackGlyph true = '.' from rfl, blank_picture]
    rfl
  · intro hmem
    obtain ⟨x, _, hx⟩ := List.mem_map.mp hmem
    exact blankChar_ne_dot x hx
  · intro k c hc
    show (List.map blankChar _)[k]? = some c ↔ _
    rw [List.getElem?_map]
    cases hk : (picture P grid si sj ei ej path (trackGlyph true))[k]? with
    | none => simp [hk]
    | some x =>
      simp only [Option.map_some', Option.some.injEq]
      exact blankChar_eq_iff c x hc

theorem flatMap_pair_length {α β : Type} (f g : α → β) (l : List α) :
    (l.flatMap (fun a => [f a, g a])).length = 2 * l.length := by
  induction l with
  | nil => rfl
  | cons a l ih => simp [List.flatMap_cons, ih]; omega

theorem trackGlyph_ne_newline (dp : Bool) : trackGlyph dp ≠ '\n' := by
  cases dp <;> decide

theorem cellGlyph_ne_newline (si sj ei ej : Int) (path : Field) (c : Char) (hc : c ≠ '\n')
    (i j : Nat) : cellGlyph si sj ei ej path c i j ≠ '\n' := by
  unfold cellGlyph
  split_ifs <;> first | exact hc | decide

theorem eastGlyph_ne_newline (grid path : Field) (c : Char) (hc : c ≠ '\n')
    (i j : Nat) : eastGlyph grid path c i j ≠ '\n' := by
  unfold eastGlyph
  split_ifs <;> first | exact hc | decide

theorem southGlyph_ne_newline (grid path : Field) (c : Char) (hc : c ≠ '\n')
    (i j : Nat) : southGlyph grid path c i j ≠ '\n' := by
  unfold southGlyph
  split_ifs <;> first | exact hc | decide

theorem topRow_shape (P : Pkg) (grid : Field) (si sj ei ej : Int) (path : Field) (c : Char)
    (hc : c ≠ '\n') (i : Nat) :
    (topRow P grid si sj ei ej path c i).length = 2 * P.width + 1 ∧
      '\n' ∉ topRow P grid si sj ei ej path c i := by
  unfold topRow
  refine ⟨by rw [List.length_cons, flatMap_pair_length, List.length_range], ?_⟩
  intro hmem
  rcases List.mem_cons.mp hmem with h | h
  · exact absurd h (by decide)
  · obtain ⟨j, _, hj⟩ := List.mem_flatMap.mp h
    simp only [List.mem_cons, List.mem_singleton, List.not_mem_nil, or_false] at hj
    rcases hj with hj | hj
    · exact cellGlyph_ne_newline si sj ei ej path c hc i j hj.symm
    · exact eastGlyph_ne_newline grid path c hc i j hj.symm

theorem bottomRow_shape (P : Pkg) (grid path : Field) (c : Char)
    (hc : c ≠ '\n') (i : Nat) :
    (bottomRow P grid path c i).length = 2 * P.width + 1 ∧
      '\n' ∉ bottomRow P grid path c i := by
  unfold bottomRow
  refine ⟨by rw [List.length_cons, flatMap_pair_length, List.length_range], ?_⟩
  intro hmem
  rcases List.mem_cons.mp hmem with h | h
  · exact absurd h (by decide)
  · obtain ⟨j, _, hj⟩ := List.mem_flatMap.mp h
    simp only [List.mem_cons, List.mem_singleton, List.not_mem_nil, or_false] at hj
    rcases hj with hj | hj
    · exact southGlyph_ne_newline grid path c hc i j hj.symm
    · exact absurd hj (by decide)

/-- C6: a text returned by `draw`, in either mode, is made of `2 * height + 1`
rows, each followed by a newline and each of `2 * width + 1` characters none of
which is a newline, and its first row is all wall glyphs. -/
theorem draw_dimensions (P : Pkg) (grid : Field) (si sj ei ej : Int) (path : Field)
    (draw_path : Bool) (s : String) (h : draw P grid si sj ei ej path draw_path = .ok s) :
    ∃ rows : List (List Char),
      s.data = rows.flatMap (fun r => r ++ ['\n']) ∧
      rows.length = 2 * P.height + 1 ∧
      (∀ r ∈ rows, r.length = 2 * P.width + 1 ∧ '\n' ∉ r) ∧
      rows.head? = some (List.replicate (2 * P.width + 1) '█') := by
  obtain ⟨_, rfl⟩ := draw_ok_inv P grid si sj ei ej path draw_path s h
  refine ⟨pictureRows P grid si sj ei ej path (trackGlyph draw_path), rfl, ?_, ?_, rfl⟩
  · unfold pictureRows
    rw [List.length_cons, flatMap_pair_length, List.length_range]
  · intro r hr
    unfold pictureRows at hr
    rcases List.mem_cons.mp hr with rfl | hr
    · refine ⟨by simp, ?_⟩
      intro hmem
      exact absurd (List.eq_of_mem_replicate hmem) (by decide)
    · obtain ⟨i, _, hi⟩ := List.mem_flatMap.mp hr
      simp only [List.mem_cons, List.mem_singleton, List.not_mem_nil, or_false] at hi
      rcases hi with rfl | rfl
      · exact topRow_shape P grid si sj ei ej path _ (trackGlyph_ne_newline _) i
      · exact bottomRow_shape P grid path _ (trackGlyph_ne_newline _) i

theorem draw_plain_eq_solved_blanked_witness :
    draw (hole 0 0) sampleGrid 0 0 0 1 samplePath true =
        .ok ⟨picture (hole 0 0) sampleGrid 0 0 0 1 samplePath '.'⟩ ∧
      draw (hole 0 0) sampleGrid 0 0 0 1 samplePath false =
        .ok (blankTrack ⟨picture (hole 0 0) sampleGrid 0 0 0 1 samplePath '.'⟩) ∧
      '.' ∉ (blankTrack ⟨picture (hole 0 0) sampleGrid 0 0 0 1 samplePath '.'⟩).data ∧
      ∀ (k : Nat) (c : Char), c ∈ ['█', 'S', 'E', '\n'] →
        ((blankTrack ⟨picture (hole 0 0) sampleGrid 0 0 0 1 samplePath '.'⟩).data[k]? = some c ↔
          (String.mk (picture (hole 0 0) sampleGrid 0 0 0 1 samplePath '.')).data[k]? = some c) :=
  ⟨draw_ok _ _ _ _ _ _ _ true sampleGrid_drawable,
    draw_plain_eq_solved_blanked (hole 0 0) sampleGrid 0 0 0 1 samplePath _
      (draw_ok _ _ _ _ _ _ _ true sampleGrid_drawable)⟩

theorem draw_dimensions_witness :
    draw (hole 0 0) sampleGrid 0 0 0 1 samplePath true =
        .ok ⟨picture (hole 0 0) sampleGrid 0 0 0 1 samplePath '.'⟩ ∧
      ∃ rows : List (List Char),
        (String.mk (picture (hole 0 0) sampleGrid 0 0 0 1 samplePath '.')).data =
          rows.flatMap (fun r => r ++ ['\n']) ∧
        rows.length = 2 * 50 + 1 ∧
        (∀ r ∈ rows, r.length = 2 * 50 + 1 ∧ '\n' ∉ r) ∧
        rows.head? = some (List.replicate (2 * 50 + 1) '█') :=
  ⟨draw_ok _ _ _ _ _ _ _ true sampleGrid_drawable,
    draw_dimensions (hole 0 0) sampleGrid 0 0 0 1 samplePath true _
      (draw_ok _ _ _ _ _ _ _ true sampleGrid_drawable)⟩

/-! ### `dig` -/

theorem mem_directions {d : Int} (h : d ∈ directions) :
    d = north ∨ d = south ∨ d = west ∨ d = east := by
  simpa [directions] using h

theorem lor_dir_ne_zero (x d : Int) (h : d ∈ directions) : Int.lor x d ≠ 0 := by
  intro h0
  have hb : ∀ k, Int.testBit d k = true → False := by
    intro k hk
    have h1 := Int.testBit_lor x d k
    have hz : Int.testBit 0 k = false := Nat.zero_testBit k
    rw [h0, hz, hk, Bool.or_true] at h1
    exact Bool.false_ne_true h1
  rcases mem_directions h with rfl | rfl | rfl | rfl
  · exact hb 0 (by decide)
  · exact hb 1 (by decide)
  · exact hb 2 (by decide)
  · exact hb 3 (by decide)

theorem opposite_mem {d : Int} (h : d ∈ directions) : opposite d ∈ directions := by
  rcases mem_directions h with rfl | rfl | rfl | rfl <;> decide

theorem digLoop_names_fail (P : Pkg) (self : Int → Int → Field → Field → Nat → Res (Field × Field × Nat))
    (i j : Int) (h : ¬ namesPass P) (ds : List Int) (grid dist : Field) (k : Nat) :
    digLoop P self i j ds grid dist k = .ok (grid, dist, k) := by
  induction ds with
  | nil => rfl
  | cons d ds ih =>
    unfold digLoop
    have : ¬ (j + dj d ≥ 0 ∧ P.new_j < P.width ∧ P.new_i ≥ 0 ∧ i + di d < P.height) :=
      fun hc => h ⟨hc.2.1, hc.2.2.1⟩
    simp only [this, if_false]
    exact ih

theorem digLoop_cons (P : Pkg) (self : Int → Int → Field → Field → Nat → Res (Field × Field × Nat))
    (i j d : Int) (ds : List Int) (grid dist : Field) (k : Nat) :
    digLoop P self i j (d :: ds) grid dist k =
      if j + dj d ≥ 0 ∧ P.new_j < P.width ∧ P.new_i ≥ 0 ∧ i + di d < P.height then
        if ¬ inb P (i + di d) (j + dj d) then .panic
        else if grid (i + di d) (j + dj d) = 0 then
          if ¬ inb P i j then .panic
          else
            match self (i + di d) (j + dj d)
              ((grid.set i j (Int.lor (grid i j) d)).set (i + di d) (j + dj d)
                (Int.lor ((grid.set i j (Int.lor (grid i j) d)) (i + di d) (j + dj d)) (opposite d)))
              (dist.set (i + di d) (j + dj d) (dist i j + 1)) k with
            | .ok (g, ds1, k1) => digLoop P self i j ds g ds1 k1
            | .panic => .panic
            | .timeout => .timeout
        else digLoop P self i j ds grid dist k
      else digLoop P self i j ds grid dist k := rfl

theorem carve_ne_zero (grid : Field) (i j a b d : Int) (hd : d ∈ directions) (x y : Int)
    (h : grid x y ≠ 0 ∨ (x = i ∧ y = j) ∨ (x = a ∧ y = b)) :
    ((grid.set i j (Int.lor (grid i j) d)).set a b
      (Int.lor ((grid.set i j (Int.lor (grid i j) d)) a b) (opposite d))) x y ≠ 0 := by
  unfold Field.set
  by_cases h1 : x = a ∧ y = b
  · rw [if_pos h1]; exact lor_dir_ne_zero _ _ (opposite_mem hd)
  · rw [if_neg h1]
    by_cases h2 : x = i ∧ y = j
    · rw [if_pos h2]; exact lor_dir_ne_zero _ _ hd
    · rw [if_neg h2]
      rcases h with h | h | h
      · exact h
      · exact absurd h h2
      · exact absurd h h1

theorem carve_other (grid : Field) (i j a b d : Int) (x y : Int)
    (h2 : ¬ (x = i ∧ y = j)) (h1 : ¬ (x = a ∧ y = b)) :
    ((grid.set i j (Int.lor (grid i j) d)).set a b
      (Int.lor ((grid.set i j (Int.lor (grid i j) d)) a b) (opposite d))) x y = grid x y := by
  unfold Field.set
  rw [if_neg h1, if_neg h2]

theorem digLoop_sealed (P : Pkg) (hP : namesPass P)
    (self : Int → Int → Field → Field → Nat → Res (Field × Field × Nat)) (i j : Int)
    (hij : inb P i j)
    (hself : ∀ a b grid dist k g d k1, inb P a b → self a b grid dist k = .ok (g, d, k1) →
      Keeps grid g ∧ (∀ x y, Sealed grid g x y) ∧ 1 ≤ a ∧ g (a - 1) b ≠ 0) :
    ∀ (ds : List Int), (∀ x ∈ ds, x ∈ directions) →
      ∀ grid dist k g d k1, digLoop P self i j ds grid dist k = .ok (g, d, k1) →
        Keeps grid g ∧ (∀ x y, ¬ (x = i ∧ y = j) → Sealed grid g x y) ∧
          (north ∈ ds → 1 ≤ i ∧ g (i - 1) j ≠ 0) := by
  intro ds
  induction ds with
  | nil =>
    intro _ grid dist k g d k1 h
    have hg : grid = g := by
      have := Res.ok.inj h
      exact congrArg Prod.fst this
    subst hg
    exact ⟨fun _ _ h => h, fun _ _ _ h0 h1 => absurd h0 h1, fun hn => absurd hn (List.not_mem_nil _)⟩
  | cons dd ds ih =>
    intro hds grid dist k g d k1 h
    have hdd : dd ∈ directions := hds dd (List.mem_cons_self _ _)
    have ih1 := ih (fun x hx => hds x (List.mem_cons_of_mem _ hx))
    rw [digLoop_cons] at h
    have hnorth_step : dd = north → i + di dd = i - 1 ∧ j + dj dd = j := by
      rintro rfl
      constructor
      · show i + (-1) = i - 1; ring
      · show j + 0 = j; ring
    by_cases hc : j + dj dd ≥ 0 ∧ P.new_j < P.width ∧ P.new_i ≥ 0 ∧ i + di dd < P.height
    · rw [if_pos hc] at h
      by_cases hin : inb P (i + di dd) (j + dj dd)
      · rw [if_neg (not_not.mpr hin)] at h
        by_cases hz : grid (i + di dd) (j + dj dd) = 0
        · rw [if_pos hz, if_neg (not_not.mpr hij)] at h
          generalize hg2 : ((grid.set i j (Int.lor (grid i j) dd)).set (i + di dd) (j + dj dd)
                (Int.lor ((grid.set i j (Int.lor (grid i j) dd)) (i + di dd) (j + dj dd))
                  (opposite dd))) = grid2 at h
          have hne := fun x y hx => hg2 ▸
            carve_ne_zero grid i j (i + di dd) (j + dj dd) dd hdd x y hx
          have hoth := fun x y h2 h1 => hg2 ▸
            carve_other grid i j (i + di dd) (j + dj dd) dd x y h2 h1
          cases hs : self (i + di dd) (j + dj dd) grid2
              (dist.set (i + di dd) (j + dj dd) (dist i j + 1)) k with
          | panic => rw [hs] at h; cases h
          | timeout => rw [hs] at h; cases h
          | ok r =>
            obtain ⟨g3, d3, k3⟩ := r
            rw [hs] at h
            obtain ⟨hk23, hs23, hn1, hn2⟩ := hself _ _ _ _ _ _ _ _ hin hs
            obtain ⟨hk3, hs3, hn3⟩ := ih1 _ _ _ _ _ _ h
            refine ⟨fun x y hx => hk3 x y (hk23 x y (hne x y (Or.inl hx))), ?_, ?_⟩
            · intro x y hxy h0 h1
              by_cases hg3 : g3 x y = 0
              · exact hs3 x y hxy hg3 h1
              · suffices hh : 1 ≤ x ∧ g3 (x - 1) y ≠ 0 from ⟨hh.1, hk3 _ _ hh.2⟩
                by_cases hnew : x = i + di dd ∧ y = j + dj dd
                · obtain ⟨rfl, rfl⟩ := hnew
                  exact ⟨hn1, hn2⟩
                · have : grid2 x y = 0 := by rw [hoth x y hxy hnew]; exact h0
                  exact hs23 x y this hg3
            · intro hn
              rcases List.mem_cons.mp hn with hn | hn
              · obtain ⟨e1, e2⟩ := hnorth_step hn.symm
                have h3 : g3 (i - 1) j ≠ 0 :=
                  hk23 _ _ (hne (i - 1) j (Or.inr (Or.inr ⟨e1.symm, e2.symm⟩)))
                rw [e1] at hin
                exact ⟨by unfold inb at hin; omega, hk3 _ _ h3⟩
              · exact hn3 hn
        · rw [if_neg hz] at h
          obtain ⟨hk3, hs3, hn3⟩ := ih1 _ _ _ _ _ _ h
          refine ⟨hk3, hs3, ?_⟩
          intro hn
          rcases List.mem_cons.mp hn with hn | hn
          · obtain ⟨e1, e2⟩ := hnorth_step hn.symm
            rw [e1, e2] at hz hin
            exact ⟨by unfold inb at hin; omega, hk3 _ _ hz⟩
          · exact hn3 hn
      · rw [if_pos hin] at h; cases h
    · rw [if_neg hc] at h
      obtain ⟨hk3, hs3, hn3⟩ := ih1 _ _ _ _ _ _ h
      refine ⟨hk3, hs3, ?_⟩
      intro hn
      rcases List.mem_cons.mp hn with hn | hn
      · obtain ⟨e1, e2⟩ := hnorth_step hn.symm
        exfalso
        apply hc
        rw [e1, e2]
        unfold inb at hij
        exact ⟨by omega, hP.1, hP.2, by omega⟩
      · exact hn3 hn

theorem dig_sealed (P : Pkg) (hP : namesPass P) (sh : Nat → List Int)
    (hsh : ∀ k, (sh k).Perm directions) (fuel : Nat) :
    ∀ a b grid dist k g d k1, inb P a b → dig P sh fuel a b grid dist k = .ok (g, d, k1) →
      Keeps grid g ∧ (∀ x y, Sealed grid g x y) ∧ 1 ≤ a ∧ g (a - 1) b ≠ 0 := by
  induction fuel with
  | zero => intro a b grid dist k g d k1 _ h; cases h
  | succ fuel ih =>
    intro a b grid dist k g d k1 hab h
    have h1 : digLoop P (dig P sh fuel) a b (sh k) grid dist (k + 1) = .ok (g, d, k1) := h
    obtain ⟨hk, hs, hn⟩ := digLoop_sealed P hP _ a b hab ih (sh k)
      (fun x hx => (hsh k).mem_iff.mp hx) _ _ _ _ _ _ h1
    have hn1 := hn ((hsh k).mem_iff.mpr (by decide))
    refine ⟨hk, ?_, hn1⟩
    intro x y
    by_cases hxy : x = a ∧ y = b
    · obtain ⟨rfl, rfl⟩ := hxy
      exact fun _ _ => hn1
    · exact hs x y hxy

theorem sealed_zero_absurd (g : Field) (hs : ∀ x y, Sealed zeroField g x y) (b : Int) :
    ∀ (n : Nat) (a : Int), a ≤ n → g a b = 0 := by
  intro n
  induction n with
  | zero =>
    intro a ha
    by_contra hne
    have := (hs a b rfl hne).1
    omega
  | succ n ih =>
    intro a ha
    by_contra hne
    have h1 := hs a b rfl hne
    exact h1.2 (ih (a - 1) (by push_cast at ha; omega))

theorem dig_names_pass_not_ok (P : Pkg) (hP : namesPass P) (sh : Nat → List Int)
    (hsh : ∀ k, (sh k).Perm directions) (fuel : Nat) (si sj : Int) (hs : inb P si sj)
    (dist : Field) (k : Nat) (r : Field × Field × Nat) :
    dig P sh fuel si sj zeroField dist k ≠ .ok r := by
  intro h
  obtain ⟨g, d, k1⟩ := r
  obtain ⟨_, hsl, _, hn⟩ := dig_sealed P hP sh hsh fuel si sj zeroField dist k g d k1 hs h
  exact hn (sealed_zero_absurd g hsl sj (si - 1).toNat (si - 1) (Int.self_le_toNat _))

theorem dig_names_fail (P : Pkg) (hP : ¬ namesPass P) (sh : Nat → List Int) (fuel : Nat)
    (i j : Int) (grid dist : Field) (k : Nat) :
    dig P sh (fuel + 1) i j grid dist k = .ok (grid, dist, k + 1) :=
  digLoop_names_fail P _ i j hP (sh k) grid dist (k + 1)

theorem dig_ok_uncarved (P : Pkg) (sh : Nat → List Int) (hsh : ∀ k, (sh k).Perm directions)
    (fuel : Nat) (si sj : Int) (hs : inb P si sj) (dist : Field) (k : Nat)
    (g d : Field) (k1 : Nat) (h : dig P sh fuel si sj zeroField dist k = .ok (g, d, k1)) :
    ¬ namesPass P ∧ g = zeroField ∧ d = dist ∧ k1 = k + 1 := by
  by_cases hP : namesPass P
  · exact absurd h (dig_names_pass_not_ok P hP sh hsh fuel si sj hs dist k _)
  · cases fuel with
    | zero => cases h
    | succ fuel =>
      rw [dig_names_fail P hP] at h
      have := Res.ok.inj h
      simp only [Prod.mk.injEq] at this
      exact ⟨hP, this.1.symm, this.2.1.symm, this.2.2.symm⟩

theorem zeros_le (P : Pkg) (g g1 : Field) (h : Keeps g g1) : zeros P g1 ≤ zeros P g := by
  unfold zeros
  apply Finset.card_le_card
  intro c hc
  rw [Finset.mem_filter] at hc ⊢
  refine ⟨hc.1, ?_⟩
  by_contra hne
  exact h _ _ hne hc.2

theorem zeros_lt (P : Pkg) (g g1 : Field) (h : Keeps g g1) (a b : Int) (hab : inb P a b)
    (h0 : g a b = 0) (h1 : g1 a b ≠ 0) : zeros P g1 < zeros P g := by
  unfold zeros
  apply Finset.card_lt_card
  rw [Finset.ssubset_iff_of_subset]
  · refine ⟨(a.toNat, b.toNat), ?_, ?_⟩
    · unfold inb at hab
      rw [Finset.mem_filter, Finset.mem_product, Finset.mem_range, Finset.mem_range]
      refine ⟨⟨by omega, by omega⟩, ?_⟩
      show g (a.toNat : Int) (b.toNat : Int) = 0
      rw [Int.toNat_of_nonneg hab.1, Int.toNat_of_nonneg hab.2.2.1]
      exact h0
    · rw [Finset.mem_filter]
      intro hc
      have h2 : g1 (a.toNat : Int) (b.toNat : Int) = 0 := hc.2
      unfold inb at hab
      rw [Int.toNat_of_nonneg hab.1, Int.toNat_of_nonneg hab.2.2.1] at h2
      exact h1 h2
  · intro c hc
    rw [Finset.mem_filter] at hc ⊢
    refine ⟨hc.1, ?_⟩
    by_contra hne
    exact h _ _ hne hc.2

theorem zeros_zeroField (P : Pkg) : zeros P zeroField = P.height * P.width := by
  unfold zeros zeroField
  simp

theorem digLoop_no_timeout (P : Pkg)
    (self : Int → Int → Field → Field → Nat → Res (Field × Field × Nat)) (i j : Int)
    (fuel : Nat)
    (hself : ∀ a b grid dist k g d k1, inb P a b → self a b grid dist k = .ok (g, d, k1) →
      Keeps grid g)
    (hnt : ∀ a b grid dist k, inb P a b → zeros P grid < fuel →
      self a b grid dist k ≠ .timeout) :
    ∀ (ds : List Int), (∀ x ∈ ds, x ∈ directions) →
      ∀ grid dist k, zeros P grid ≤ fuel → digLoop P self i j ds grid dist k ≠ .timeout := by
  intro ds
  induction ds with
  | nil => intro _ grid dist k _ h; cases h
  | cons dd ds ih =>
    intro hds grid dist k hz h
    have hdd : dd ∈ directions := hds dd (List.mem_cons_self _ _)
    have ih1 := ih (fun x hx => hds x (List.mem_cons_of_mem _ hx))
    rw [digLoop_cons] at h
    by_cases hc : j + dj dd ≥ 0 ∧ P.new_j < P.width ∧ P.new_i ≥ 0 ∧ i + di dd < P.height
    · rw [if_pos hc] at h
      by_cases hin : inb P (i + di dd) (j + dj dd)
      · rw [if_neg (not_not.mpr hin)] at h
        by_cases h0 : grid (i + di dd) (j + dj dd) = 0
        · rw [if_pos h0] at h
          by_cases hij : inb P i j
          · rw [if_neg (not_not.mpr hij)] at h
            generalize hg2 : ((grid.set i j (Int.lor (grid i j) dd)).set (i + di dd) (j + dj dd)
                (Int.lor ((grid.set i j (Int.lor (grid i j) dd)) (i + di dd) (j + dj dd))
                  (opposite dd))) = grid2 at h
            have hne := fun x y hx => hg2 ▸
              carve_ne_zero grid i j (i + di dd) (j + dj dd) dd hdd x y hx
            have hk2 : Keeps grid grid2 := fun x y hx => hne x y (Or.inl hx)
            have hlt : zeros P grid2 < zeros P grid :=
              zeros_lt P grid grid2 hk2 _ _ hin h0 (hne _ _ (Or.inr (Or.inr ⟨rfl, rfl⟩)))
            cases hs : self (i + di dd) (j + dj dd) grid2
                (dist.set (i + di dd) (j + dj dd) (dist i j + 1)) k with
            | panic => rw [hs] at h; cases h
            | timeout => exact hnt _ _ _ _ _ hin (by omega) hs
            | ok r =>
              obtain ⟨g3, d3, k3⟩ := r
              rw [hs] at h
              have hk3 := hself _ _ _ _ _ _ _ _ hin hs
              have := zeros_le P grid2 g3 hk3
              exact ih1 g3 d3 k3 (by omega) h
          · rw [if_pos hij] at h; cases h
        · rw [if_neg h0] at h
          exact ih1 _ _ _ hz h
      · rw [if_pos hin] at h; cases h
    · rw [if_neg hc] at h
      exact ih1 _ _ _ hz h

theorem dig_no_timeout (P : Pkg) (hP : namesPass P) (sh : Nat → List Int)
    (hsh : ∀ k, (sh k).Perm directions) (fuel : Nat) :
    ∀ a b grid dist k, inb P a b → zeros P grid < fuel →
      dig P sh fuel a b grid dist k ≠ .timeout := by
  induction fuel with
  | zero => intro a b grid dist k _ h; omega
  | succ fuel ih =>
    intro a b grid dist k _ hz
    exact digLoop_no_timeout P (dig P sh fuel) a b fuel
      (fun a b grid dist k g d k1 hab h => (dig_sealed P hP sh hsh fuel a b grid dist k g d k1 hab h).1)
      ih (sh k) (fun x hx => (hsh k).mem_iff.mp hx) grid dist (k + 1) (by omega)

theorem dig_panics (P : Pkg) (hP : namesPass P) (sh : Nat → List Int)
    (hsh : ∀ k, (sh k).Perm directions) (fuel : Nat) (hf : P.height * P.width < fuel)
    (si sj : Int) (hs : inb P si sj) (dist : Field) (k : Nat) :
    dig P sh fuel si sj zeroField dist k = .panic := by
  cases h : dig P sh fuel si sj zeroField dist k with
  | panic => rfl
  | ok r => exact absurd h (dig_names_pass_not_ok P hP sh hsh fuel si sj hs dist k r)
  | timeout =>
    exact absurd h (dig_no_timeout P hP sh hsh fuel si sj zeroField dist k hs
      (by rw [zeros_zeroField]; exact hf))

/-! ### The pipeline of `maze` -/

theorem eastFirst_perm (k : Nat) : (eastFirst k).Perm directions := by
  unfold eastFirst directions
  decide

theorem find_exit_zeroField (P : Pkg) (hh : 0 < P.height) (hw : 0 < P.width) :
    find_exit P zeroField = (0, 0) := by
  obtain ⟨hin, _, hlt⟩ := find_exit_spec P zeroField hh hw (fun _ _ _ => le_refl _)
  have h00 : inb P 0 0 := ⟨le_refl _, by omega, le_refl _, by omega⟩
  have h := hlt 0 0 h00
  unfold inb at hin
  have h1 : (find_exit P zeroField).1 = 0 := by
    by_contra hne
    exact absurd (h (Or.inl (by omega))) (lt_irrefl _)
  have h2 : (find_exit P zeroField).2 = 0 := by
    by_contra hne
    exact absurd (h (Or.inr ⟨h1.symm, by omega⟩)) (lt_irrefl _)
  exact Prod.ext h1 h2

theorem trace_path_zeroField (P : Pkg) (fuel : Nat) (hh : 0 < P.height) (hw : 0 < P.width) :
    trace_path P fuel zeroField 0 0 = .ok (zeroField.set 0 0 1) := by
  have h00 : inb P 0 0 := ⟨le_refl _, by omega, le_refl _, by omega⟩
  unfold trace_path
  rw [if_neg (not_not.mpr h00)]
  cases fuel <;> rfl

theorem maze_path_names_pass (P : Pkg) (hP : namesPass P) (sh : Nat → List Int)
    (hsh : ∀ k, (sh k).Perm directions) (fuel : Nat) (hf : P.height * P.width < fuel)
    (sj si : Int) (hs : inb P si sj) : maze_path P sh fuel sj si = .panic := by
  unfold maze_path
  rw [dig_panics P hP sh hsh fuel hf si sj hs]

theorem maze_path_names_fail (P : Pkg) (hP : ¬ namesPass P) (sh : Nat → List Int)
    (fuel : Nat) (hf : 0 < fuel) (sj si : Int) (hs : inb P si sj) :
    maze_path P sh fuel sj si = .ok (zeroField, zeroField, (0, 0), zeroField.set 0 0 1) := by
  have hh : 0 < P.height := by unfold inb at hs; omega
  have hw : 0 < P.width := by unfold inb at hs; omega
  obtain ⟨n, rfl⟩ : ∃ n, fuel = n + 1 := ⟨fuel - 1, by omega⟩
  unfold maze_path
  rw [dig_names_fail P hP]
  simp only [find_exit_zeroField P hh hw]
  rw [trace_path_zeroField P _ hh hw]

theorem maze_path_cases (P : Pkg) (sh : Nat → List Int)
    (hsh : ∀ k, (sh k).Perm directions) (fuel : Nat) (hf : P.height * P.width < fuel)
    (sj si : Int) (hs : inb P si sj) :
    maze_path P sh fuel sj si = .panic ∨
      maze_path P sh fuel sj si = .ok (zeroField, zeroField, (0, 0), zeroField.set 0 0 1) := by
  by_cases hP : namesPass P
  · exact Or.inl (maze_path_names_pass P hP sh hsh fuel hf sj si hs)
  · exact Or.inr (maze_path_names_fail P hP sh fuel (by omega) sj si hs)

theorem land_zero_left (x : Int) : Int.land 0 x = 0 := by
  cases x with
  | ofNat n =>
    show ((0 &&& n : Nat) : Int) = 0
    rw [Nat.zero_and]; rfl
  | negSucc n => show ((Nat.ldiff 0 n : Nat) : Int) = 0; simp [Nat.ldiff]

theorem zeroField_drawable (P : Pkg) : drawable P zeroField := by
  intro i j _ _
  exact ⟨fun h => absurd (land_zero_left _) h, fun h => absurd (land_zero_left _) h⟩

theorem maze_cases (P : Pkg) (sh : Nat → List Int)
    (hsh : ∀ k, (sh k).Perm directions) (fuel : Nat) (hf : P.height * P.width < fuel)
    (sj si : Int) (hs : inb P si sj) :
    maze P sh fuel sj si = .panic ∨
      maze P sh fuel sj si =
        .ok ([⟨picture P zeroField si sj 0 0 (zeroField.set 0 0 1) ' '⟩],
          ⟨picture P zeroField si sj 0 0 (zeroField.set 0 0 1) '.'⟩) := by
  unfold maze
  rcases maze_path_cases P sh hsh fuel hf sj si hs with h | h
  · left; rw [h]
  · right
    rw [h]
    simp only
    rw [draw_ok P zeroField si sj 0 0 _ false (zeroField_drawable P),
      draw_ok P zeroField si sj 0 0 _ true (zeroField_drawable P)]
    rfl

theorem northFirst_perm (k : Nat) : (northFirst k).Perm directions := List.Perm.refl _

theorem picture_mem (P : Pkg) (grid : Field) (si sj ei ej : Int) (path : Field) (c x : Char)
    (h : x ∈ picture P grid si sj ei ej path c) :
    x = '█' ∨ x = '\n' ∨ (∃ i j, x = cellGlyph si sj ei ej path c i j) ∨
      (∃ i j, x = eastGlyph grid path c i j) ∨ (∃ i j, x = southGlyph grid path c i j) := by
  unfold picture at h
  obtain ⟨r, hr, hx⟩ := List.mem_flatMap.mp h
  rcases List.mem_append.mp hx with hx | hx
  · unfold pictureRows at hr
    rcases List.mem_cons.mp hr with rfl | hr
    · exact Or.inl (List.eq_of_mem_replicate hx)
    · obtain ⟨i, _, hi⟩ := List.mem_flatMap.mp hr
      simp only [List.mem_cons, List.mem_singleton, List.not_mem_nil, or_false] at hi
      rcases hi with rfl | rfl
      · unfold topRow at hx
        rcases List.mem_cons.mp hx with rfl | hx
        · exact Or.inl rfl
        · obtain ⟨j, _, hj⟩ := List.mem_flatMap.mp hx
          simp only [List.mem_cons, List.mem_singleton, List.not_mem_nil, or_false] at hj
          rcases hj with rfl | rfl
          · exact Or.inr (Or.inr (Or.inl ⟨i, j, rfl⟩))
          · exact Or.inr (Or.inr (Or.inr (Or.inl ⟨i, j, rfl⟩)))
      · unfold bottomRow at hx
        rcases List.mem_cons.mp hx with rfl | hx
        · exact Or.inl rfl
        · obtain ⟨j, _, hj⟩ := List.mem_flatMap.mp hx
          simp only [List.mem_cons, List.mem_singleton, List.not_mem_nil, or_false] at hj
          rcases hj with rfl | rfl
          · exact Or.inr (Or.inr (Or.inr (Or.inr ⟨i, j, rfl⟩)))
          · exact Or.inl rfl
  · exact Or.inr (Or.inl (List.mem_singleton.mp hx))

theorem picture_no_exit (P : Pkg) (grid : Field) (si sj : Int) (path : Field) (c : Char)
    (hc : c ≠ 'E') : 'E' ∉ picture P grid si sj si sj path c := by
  intro h
  rcases picture_mem P grid si sj si sj path c 'E' h with h | h | ⟨i, j, h⟩ | ⟨i, j, h⟩ | ⟨i, j, h⟩
  · exact absurd h (by decide)
  · exact absurd h (by decide)
  · unfold cellGlyph at h
    split_ifs at h
    · exact absurd h (by decide)
    · exact absurd h (by decide)
    · exact hc h.symm
  · unfold eastGlyph at h
    split_ifs at h
    · exact hc h.symm
    · exact absurd h (by decide)
    · exact absurd h (by decide)
  · unfold southGlyph at h
    split_ifs at h
    · exact hc h.symm
    · exact absurd h (by decide)
    · exact absurd h (by decide)

/-! ### Claims about the maze that `dig` returns

Line 31 tests `new_j < width && new_i >= 0` on names that are not the
neighbour's coordinates. When that test passes, nothing keeps `newi >= 0` or
`newj < width`, and `grid[newi][newj]` is read outside the array as soon as a
cell of row 0 looks north or a cell of the last column looks east: every run
from the zero arrays panics (`dig_panics`). When it fails, no cell is ever
carved (`dig_names_fail`). Either way `dig`, started on the zero arrays, never
returns a carved maze. -/

/-- C1, on the code: started inside the grid on the zero arrays, with every shuffle
a permutation of the four directions, `dig` ends in an index-out-of-range panic
or returns the grid and the distances unchanged; it never returns a grid in
which every cell has a non-zero mask. -/
theorem dig_never_spanning (P : Pkg) (sh : Nat → List Int) (hsh : ∀ k, (sh k).Perm directions)
    (fuel : Nat) (hf : P.height * P.width < fuel) (si sj : Int) (hs : inb P si sj) :
    (dig P sh fuel si sj zeroField zeroField 0 = .panic ∨
      dig P sh fuel si sj zeroField zeroField 0 = .ok (zeroField, zeroField, 1)) ∧
    ¬ ∃ g d k1, dig P sh fuel si sj zeroField zeroField 0 = .ok (g, d, k1) ∧
      ∀ i j, inb P i j → g i j ≠ 0 := by
  constructor
  · by_cases hP : namesPass P
    · exact Or.inl (dig_panics P hP sh hsh fuel hf si sj hs zeroField 0)
    · obtain ⟨n, rfl⟩ : ∃ n, fuel = n + 1 := ⟨fuel - 1, by omega⟩
      exact Or.inr (dig_names_fail P hP sh n si sj zeroField zeroField 0)
  · rintro ⟨g, d, k1, h, hg⟩
    obtain ⟨_, rfl, _, _⟩ := dig_ok_uncarved P sh hsh fuel si sj hs zeroField 0 g d k1 h
    exact hg si sj hs rfl

theorem dig_never_spanning_witness :
    ((∀ k, (northFirst k).Perm directions) ∧ (hole 0 0).height * (hole 0 0).width < 2501 ∧
      inb (hole 0 0) 0 0) ∧
    dig (hole 0 0) northFirst 2501 0 0 zeroField zeroField 0 = .panic ∧
    ((dig (hole 0 0) northFirst 2501 0 0 zeroField zeroField 0 = .panic ∨
      dig (hole 0 0) northFirst 2501 0 0 zeroField zeroField 0 = .ok (zeroField, zeroField, 1)) ∧
    ¬ ∃ g d k1, dig (hole 0 0) northFirst 2501 0 0 zeroField zeroField 0 = .ok (g, d, k1) ∧
      ∀ i j, inb (hole 0 0) i j → g i j ≠ 0) :=
  ⟨⟨northFirst_perm, by decide, by decide⟩, rfl,
    dig_never_spanning (hole 0 0) northFirst northFirst_perm 2501 (by decide) 0 0 (by decide)⟩

/-- C2, on the code: no run of `dig` from the zero arrays returns a distance field
with a non-zero entry, so no cell other than the start ever holds its distance
from the start. -/
theorem dig_records_no_distance (P : Pkg) (sh : Nat → List Int)
    (hsh : ∀ k, (sh k).Perm directions) (fuel : Nat) (si sj : Int) (hs : inb P si sj) :
    ¬ ∃ g d k1 i j, dig P sh fuel si sj zeroField zeroField 0 = .ok (g, d, k1) ∧ d i j ≠ 0 := by
  rintro ⟨g, d, k1, i, j, h, hd⟩
  obtain ⟨_, _, rfl, _⟩ := dig_ok_uncarved P sh hsh fuel si sj hs zeroField 0 g d k1 h
  exact hd rfl

theorem dig_records_no_distance_witness :
    ((∀ k, (northFirst k).Perm directions) ∧ inb (hole 0 0) 0 0) ∧
    dig (hole 0 0) northFirst 2501 0 0 zeroField zeroField 0 = .panic ∧
    ¬ ∃ g d k1 i j,
      dig (hole 0 0) northFirst 2501 0 0 zeroField zeroField 0 = .ok (g, d, k1) ∧ d i j ≠ 0 :=
  ⟨⟨northFirst_perm, by decide⟩, rfl,
    dig_records_no_distance (hole 0 0) northFirst northFirst_perm 2501 0 0 (by decide)⟩

/-- C3, on the code: when the start is not cell `(0, 0)`, no run of lines 131-139 of
`maze` yields a path field that marks the start cell: the run panics in `dig`,
or the distances are all zero, the exit is `(0, 0)` and the trace marks that
one cell. -/
theorem trace_misses_start (P : Pkg) (sh : Nat → List Int) (hsh : ∀ k, (sh k).Perm directions)
    (fuel : Nat) (hf : P.height * P.width < fuel) (sj si : Int) (hs : inb P si sj)
    (hne : ¬ (si = 0 ∧ sj = 0)) :
    ¬ ∃ grid dist e path,
      maze_path P sh fuel sj si = .ok (grid, dist, e, path) ∧ path si sj ≠ 0 := by
  rintro ⟨grid, dist, e, path, h, hp⟩
  rcases maze_path_cases P sh hsh fuel hf sj si hs with h1 | h1
  · rw [h1] at h; cases h
  · rw [h1] at h
    have h2 := Res.ok.inj h
    simp only [Prod.mk.injEq] at h2
    obtain ⟨_, _, _, rfl⟩ := h2
    apply hp
    unfold Field.set
    rw [if_neg hne]
    rfl

theorem trace_misses_start_witness :
    ((∀ k, (northFirst k).Perm directions) ∧ (hole 0 0).height * (hole 0 0).width < 2501 ∧
      inb (hole 0 0) 0 1 ∧ ¬ ((0 : Int) = 0 ∧ (1 : Int) = 0)) ∧
    maze_path (hole 0 0) northFirst 2501 1 0 = .panic ∧
    ¬ ∃ grid dist e path,
      maze_path (hole 0 0) northFirst 2501 1 0 = .ok (grid, dist, e, path) ∧ path 0 1 ≠ 0 :=
  ⟨⟨northFirst_perm, by decide, by decide, by decide⟩, rfl,
    trace_misses_start (hole 0 0) northFirst northFirst_perm 2501 (by decide) 1 0 (by decide)
      (by decide)⟩

/-- C8, on the code: when both random draws of `maze` give 0, so that the start is
cell `(0, 0)`, the run panics, or the exit found is the start itself and
neither rendering contains an `E`. -/
theorem maze_origin_shows_no_exit (P : Pkg) (sh : Nat → List Int)
    (hsh : ∀ k, (sh k).Perm directions) (fuel : Nat) (hf : P.height * P.width < fuel)
    (hs : inb P 0 0) :
    maze P sh fuel 0 0 = .panic ∨
      ∃ plain solved, maze P sh fuel 0 0 = .ok ([plain], solved) ∧
        maze_path P sh fuel 0 0 = .ok (zeroField, zeroField, (0, 0), zeroField.set 0 0 1) ∧
        'E' ∉ plain.data ∧ 'E' ∉ solved.data := by
  by_cases hP : namesPass P
  · left
    unfold maze
    rw [maze_path_names_pass P hP sh hsh fuel hf 0 0 hs]
  · right
    rcases maze_cases P sh hsh fuel hf 0 0 hs with h | h
    · exfalso
      unfold maze at h
      rw [maze_path_names_fail P hP sh fuel (by omega) 0 0 hs] at h
      simp only at h
      rw [draw_ok P zeroField 0 0 0 0 _ false (zeroField_drawable P),
        draw_ok P zeroField 0 0 0 0 _ true (zeroField_drawable P)] at h
      cases h
    · exact ⟨_, _, h, maze_path_names_fail P hP sh fuel (by omega) 0 0 hs,
        picture_no_exit P zeroField 0 0 _ ' ' (by decide),
        picture_no_exit P zeroField 0 0 _ '.' (by decide)⟩

theorem maze_origin_shows_no_exit_witness :
    ((∀ k, (northFirst k).Perm directions) ∧ (hole 0 0).height * (hole 0 0).width < 2501 ∧
      inb (hole 0 0) 0 0) ∧
    maze (hole 0 0) northFirst 2501 0 0 = .panic ∧
    (maze (hole 0 0) northFirst 2501 0 0 = .panic ∨
      ∃ plain solved, maze (hole 0 0) northFirst 2501 0 0 = .ok ([plain], solved) ∧
        maze_path (hole 0 0) northFirst 2501 0 0 =
          .ok (zeroField, zeroField, (0, 0), zeroField.set 0 0 1) ∧
        'E' ∉ plain.data ∧ 'E' ∉ solved.data) :=
  ⟨⟨northFirst_perm, by decide, by decide⟩, rfl,
    maze_origin_shows_no_exit (hole 0 0) northFirst northFirst_perm 2501 (by decide) (by decide)⟩

/-! ### The direction tables -/

theorem dj_eq_mapGet (d : Int) : dj d = mapGet dj_table d := by
  unfold dj mapGet dj_table
  by_cases h1 : d = east
  · subst h1; rfl
  · by_cases h2 : d = west
    · subst h2; rfl
    · by_cases h3 : d = north
      · subst h3; rfl
      · by_cases h4 : d = south
        · subst h4; rfl
        · rw [if_neg h1, if_neg h2]
          have e1 : (d == east) = false := beq_eq_false_iff_ne.mpr h1
          have e2 : (d == west) = false := beq_eq_false_iff_ne.mpr h2
          have e3 : (d == north) = false := beq_eq_false_iff_ne.mpr h3
          have e4 : (d == south) = false := beq_eq_false_iff_ne.mpr h4
          simp only [List.lookup, e1, e2, e3, e4]
          rfl

theorem di_eq_mapGet (d : Int) : di d = mapGet di_table d := by
  unfold di mapGet di_table
  by_cases h1 : d = east
  · subst h1; rfl
  · by_cases h2 : d = west
    · subst h2; rfl
    · by_cases h3 : d = north
      · subst h3; rfl
      · by_cases h4 : d = south
        · subst h4; rfl
        · rw [if_neg h3, if_neg h4]
          have e1 : (d == east) = false := beq_eq_false_iff_ne.mpr h1
          have e2 : (d == west) = false := beq_eq_false_iff_ne.mpr h2
          have e3 : (d == north) = false := beq_eq_false_iff_ne.mpr h3
          have e4 : (d == south) = false := beq_eq_false_iff_ne.mpr h4
          simp only [List.lookup, e1, e2, e3, e4]
          rfl

theorem opposite_eq_mapGet (d : Int) : opposite d = mapGet opposite_table d := by
  unfold opposite mapGet opposite_table
  by_cases h1 : d = east
  · subst h1; rfl
  · by_cases h2 : d = west
    · subst h2; rfl
    · by_cases h3 : d = north
      · subst h3; rfl
      · by_cases h4 : d = south
        · subst h4; rfl
        · rw [if_neg h1, if_neg h2, if_neg h3, if_neg h4]
          have e1 : (d == east) = false := beq_eq_false_iff_ne.mpr h1
          have e2 : (d == west) = false := beq_eq_false_iff_ne.mpr h2
          have e3 : (d == north) = false := beq_eq_false_iff_ne.mpr h3
          have e4 : (d == south) = false := beq_eq_false_iff_ne.mpr h4
          simp only [List.lookup, e1, e2, e3, e4]
          rfl

/-- C16: each of the maps `di`, `dj` and `opposite` has an entry for every one of
north, south, west and east, and the functions used by `dig` and `trace_path` are
the lookups in these maps; north is the step `(-1, 0)`, south `(1, 0)`, west
`(0, -1)` and east `(0, 1)`, each a unit cardinal step; `opposite` sends a
direction to a different direction and back, and negates both offsets. -/
theorem direction_tables (d : Int) (hd : d ∈ directions) :
    ((di_table.lookup d).isSome ∧ (dj_table.lookup d).isSome ∧
      (opposite_table.lookup d).isSome) ∧
    (di d = mapGet di_table d ∧ dj d = mapGet dj_table d ∧
      opposite d = mapGet opposite_table d) ∧
    ((di north, dj north) = (-1, 0) ∧ (di south, dj south) = (1, 0) ∧
      (di west, dj west) = (0, -1) ∧ (di east, dj east) = (0, 1)) ∧
    |di d| + |dj d| = 1 ∧
    (opposite d ∈ directions ∧ opposite (opposite d) = d ∧ opposite d ≠ d) ∧
    (di (opposite d) = - di d ∧ dj (opposite d) = - dj d) := by
  refine ⟨?_, ⟨di_eq_mapGet d, dj_eq_mapGet d, opposite_eq_mapGet d⟩, by decide, ?_, ?_, ?_⟩ <;>
    rcases mem_directions hd with rfl | rfl | rfl | rfl <;> decide

theorem direction_tables_witness :
    east ∈ directions ∧
    (((di_table.lookup east).isSome ∧ (dj_table.lookup east).isSome ∧
      (opposite_table.lookup east).isSome) ∧
    (di east = mapGet di_table east ∧ dj east = mapGet dj_table east ∧
      opposite east = mapGet opposite_table east) ∧
    ((di north, dj north) = (-1, 0) ∧ (di south, dj south) = (1, 0) ∧
      (di west, dj west) = (0, -1) ∧ (di east, dj east) = (0, 1)) ∧
    |di east| + |dj east| = 1 ∧
    (opposite east ∈ directions ∧ opposite (opposite east) = east ∧ opposite east ≠ east) ∧
    (di (opposite east) = - di east ∧ dj (opposite east) = - dj east)) :=
  ⟨by decide, direction_tables east (by decide)⟩

/-! ### `trace_path` -/

theorem trace_loop_eq_walk (P : Pkg) (dist : Field) (fuel : Nat) :
    ∀ (i j d : Int) (path : Field) (n : Nat),
      trace_loop P dist fuel i j d path =
        Res.map (fun r => r.1) (trace_walk P dist fuel i j d path n) := by
  induction fuel with
  | zero =>
    intro i j d path n
    unfold trace_loop trace_walk
    split_ifs <;> rfl
  | succ fuel ih =>
    intro i j d path n
    unfold trace_loop trace_walk
    by_cases hd : d > 0
    · rw [if_pos hd, if_pos hd]
      cases trace_step P dist i j d directions with
      | none => exact ih _ _ _ _ _
      | some ab => exact ih _ _ _ _ _
    · rw [if_neg hd, if_neg hd]; rfl

theorem trace_path_eq_walk (P : Pkg) (fuel : Nat) (dist : Field) (ei ej : Int) :
    trace_path P fuel dist ei ej =
      Res.map (fun r => r.1) (trace_path_walk P fuel dist ei ej) := by
  unfold trace_path trace_path_walk
  split_ifs
  · exact trace_loop_eq_walk P dist fuel _ _ _ _ 0
  · rfl

theorem trace_step_some (P : Pkg) (dist : Field) (i j d : Int) (dirs : List Int) (a b : Int)
    (h : trace_step P dist i j d dirs = some (a, b)) :
    ∃ dir ∈ dirs, a = i + di dir ∧ b = j + dj dir ∧ inb P a b ∧ dist a b = d - 1 := by
  induction dirs with
  | nil => cases h
  | cons dir dirs ih =>
    unfold trace_step at h
    simp only at h
    split_ifs at h with h1 h2
    · have e := Option.some.inj h
      simp only [Prod.mk.injEq] at e
      obtain ⟨rfl, rfl⟩ := e
      exact ⟨dir, List.mem_cons_self _ _, rfl, rfl, ⟨h1.1, h1.2.1, h1.2.2.1, h1.2.2.2⟩, h2⟩
    · obtain ⟨x, hx, hr⟩ := ih h
      exact ⟨x, List.mem_cons_of_mem _ hx, hr⟩
    · obtain ⟨x, hx, hr⟩ := ih h
      exact ⟨x, List.mem_cons_of_mem _ hx, hr⟩

theorem trace_step_none (P : Pkg) (dist : Field) (i j d : Int) (dirs : List Int)
    (h : ∀ dir ∈ dirs, ¬ (inb P (i + di dir) (j + dj dir) ∧
      dist (i + di dir) (j + dj dir) = d - 1)) :
    trace_step P dist i j d dirs = none := by
  induction dirs with
  | nil => rfl
  | cons dir dirs ih =>
    unfold trace_step
    simp only
    have hrest := ih (fun x hx => h x (List.mem_cons_of_mem _ hx))
    have hdir := h dir (List.mem_cons_self _ _)
    split_ifs with h1 h2
    · exact absurd ⟨⟨h1.1, h1.2.1, h1.2.2.1, h1.2.2.2⟩, h2⟩ hdir
    · exact hrest
    · exact hrest

theorem trace_step_found (P : Pkg) (dist : Field) (i j d : Int) (dirs : List Int)
    (h : ∃ dir ∈ dirs, inb P (i + di dir) (j + dj dir) ∧
      dist (i + di dir) (j + dj dir) = d - 1) :
    ∃ a b, trace_step P dist i j d dirs = some (a, b) := by
  cases hs : trace_step P dist i j d dirs with
  | some ab => exact ⟨ab.1, ab.2, rfl⟩
  | none =>
    exfalso
    induction dirs with
    | nil => obtain ⟨x, hx, _⟩ := h; cases hx
    | cons dir dirs ih =>
      unfold trace_step at hs
      simp only at hs
      obtain ⟨x, hx, hin, hd⟩ := h
      split_ifs at hs with h1 h2
      · rcases List.mem_cons.mp hx with rfl | hx
        · exact h2 hd
        · exact ih ⟨x, hx, hin, hd⟩ hs
      · rcases List.mem_cons.mp hx with rfl | hx
        · exact h1 ⟨hin.1, hin.2.1, hin.2.2.1, hin.2.2.2⟩
        · exact ih ⟨x, hx, hin, hd⟩ hs

theorem trace_walk_stuck (P : Pkg) (dist : Field) (i j d : Int) (hd : 0 < d)
    (hs : trace_step P dist i j d directions = none) (fuel : Nat) :
    ∀ (path : Field) (n : Nat), trace_walk P dist fuel i j d path n = .timeout := by
  induction fuel with
  | zero => intro path n; unfold trace_walk; rw [if_pos hd]
  | succ fuel ih =>
    intro path n
    unfold trace_walk
    rw [if_pos hd, hs]
    exact ih _ _

theorem trace_walk_no_panic (P : Pkg) (dist : Field) (fuel : Nat) :
    ∀ (i j d : Int) (path : Field) (n : Nat), trace_walk P dist fuel i j d path n ≠ .panic := by
  induction fuel with
  | zero =>
    intro i j d path n h
    unfold trace_walk at h
    split_ifs at h
  | succ fuel ih =>
    intro i j d path n h
    unfold trace_walk at h
    split_ifs at h
    cases hs : trace_step P dist i j d directions with
    | none => rw [hs] at h; exact ih _ _ _ _ _ h
    | some ab => rw [hs] at h; exact ih _ _ _ _ _ h

theorem trace_walk_done (P : Pkg) (dist : Field) (fuel : Nat) (i j d : Int) (hd : ¬ d > 0)
    (path : Field) (n : Nat) : trace_walk P dist fuel i j d path n = .ok (path, i, j, n) := by
  cases fuel <;> (unfold trace_walk; rw [if_neg hd])

theorem trace_walk_downhill (P : Pkg) (dist : Field) (hdh : Downhill P dist) (m : Nat) :
    ∀ (fuel : Nat) (i j : Int) (path : Field) (n : Nat), inb P i j → dist i j = m → m ≤ fuel →
      ∃ path1 fi fj, trace_walk P dist fuel i j (dist i j) path n = .ok (path1, fi, fj, n + m) ∧
        inb P fi fj ∧ dist fi fj = 0 := by
  induction m with
  | zero =>
    intro fuel i j path n hin hd _
    refine ⟨path, i, j, ?_, hin, by simpa using hd⟩
    exact trace_walk_done P dist fuel i j _ (by rw [hd]; simp) path n
  | succ m ih =>
    intro fuel i j path n hin hd hf
    obtain ⟨f, rfl⟩ : ∃ f, fuel = f + 1 := ⟨fuel - 1, by omega⟩
    have hpos : dist i j > 0 := by rw [hd]; push_cast; omega
    obtain ⟨a, b, hs⟩ := trace_step_found P dist i j (dist i j) directions (hdh i j hin hpos)
    obtain ⟨dir, _, _, _, hab, hdab⟩ := trace_step_some P dist i j (dist i j) directions a b hs
    have hdm : dist a b = m := by rw [hdab, hd]; push_cast; ring
    obtain ⟨path1, fi, fj, hw, hfin, hf0⟩ := ih f a b (path.set a b 1) (n + 1) hab hdm (by omega)
    refine ⟨path1, fi, fj, ?_, hfin, hf0⟩
    unfold trace_walk
    rw [if_pos hpos, hs]
    simp only
    rw [← hdab, hw]
    congr 4
    omega

theorem slopeDist_downhill (P : Pkg) : Downhill P slopeDist := by
  intro i j hin hpos
  unfold slopeDist at hpos ⊢
  unfold inb at hin ⊢
  by_cases hi : 0 < i
  · refine ⟨north, by decide, ?_, ?_⟩
    · have e1 : di north = -1 := rfl
      have e2 : dj north = 0 := rfl
      rw [e1, e2]; omega
    · have e1 : di north = -1 := rfl
      have e2 : dj north = 0 := rfl
      rw [e1, e2]; omega
  · refine ⟨west, by decide, ?_, ?_⟩
    · have e1 : di west = 0 := rfl
      have e2 : dj west = -1 := rfl
      rw [e1, e2]; omega
    · have e1 : di west = 0 := rfl
      have e2 : dj west = -1 := rfl
      rw [e1, e2]; omega

theorem trace_path_no_panic (P : Pkg) (fuel : Nat) (dist : Field) (ei ej : Int)
    (he : inb P ei ej) : trace_path P fuel dist ei ej ≠ .panic := by
  intro h
  rw [trace_path_eq_walk] at h
  unfold trace_path_walk at h
  rw [if_neg (not_not.mpr he)] at h
  cases hw : trace_walk P dist fuel ei ej (dist ei ej) (zeroField.set ei ej 1) 0 with
  | ok r => rw [hw] at h; cases h
  | timeout => rw [hw] at h; cases h
  | panic => exact trace_walk_no_panic P dist fuel _ _ _ _ _ hw

theorem trace_path_walk_downhill (P : Pkg) (dist : Field) (ei ej : Int) (he : inb P ei ej)
    (hdh : Downhill P dist) (fuel : Nat) (hf : (dist ei ej).toNat ≤ fuel) :
    ∃ path fi fj,
      trace_path_walk P fuel dist ei ej = .ok (path, fi, fj, (dist ei ej).toNat) ∧
      inb P fi fj ∧ (0 ≤ dist ei ej → dist fi fj = 0) := by
  unfold trace_path_walk
  rw [if_neg (not_not.mpr he)]
  by_cases h0 : 0 ≤ dist ei ej
  · obtain ⟨path1, fi, fj, hw, hfin, hf0⟩ :=
      trace_walk_downhill P dist hdh (dist ei ej).toNat fuel ei ej (zeroField.set ei ej 1) 0 he
        (Int.toNat_of_nonneg h0).symm hf
    rw [Nat.zero_add] at hw
    exact ⟨path1, fi, fj, hw, hfin, fun _ => hf0⟩
  · refine ⟨zeroField.set ei ej 1, ei, ej, ?_, he, fun h => absurd h h0⟩
    rw [trace_walk_done P dist fuel ei ej _ (by omega)]
    have : (dist ei ej).toNat = 0 := by omega
    rw [this]

/-- C15, on the code: in the 50x50 grid, on the distance field whose cell `(0, 0)` holds
2 while every other cell holds 0, `trace_path` from the exit `(0, 0)` finds no
neighbour holding 1, and the loop `for d > 0` never ends: whatever the fuel, the
run is still going. No failure is reported. -/
theorem trace_path_stuck :
    inb (hole 0 0) 0 0 ∧ 0 < stuckDist 0 0 ∧
    trace_step (hole 0 0) stuckDist 0 0 (stuckDist 0 0) directions = none ∧
    ∀ fuel, trace_path (hole 0 0) fuel stuckDist 0 0 = .timeout := by
  have hs : trace_step (hole 0 0) stuckDist 0 0 (stuckDist 0 0) directions = none := by decide
  refine ⟨by decide, by decide, hs, ?_⟩
  intro fuel
  rw [trace_path_eq_walk]
  unfold trace_path_walk
  rw [if_neg (by decide),
    trace_walk_stuck (hole 0 0) stuckDist 0 0 (stuckDist 0 0) (by decide) hs fuel]
  rfl

/-- C15, amended: for an exit inside the grid, `trace_path` never ends in a failure,
whatever the distance field holds; and when every cell of the grid that holds
a positive distance `d` has a neighbour inside the grid that holds `d - 1`,
`trace_path` returns the path field after exactly `dist[ei][ej]` iterations of the
loop `for d > 0` (none when `dist[ei][ej]` is not positive), the walk standing on
a cell inside the grid, one that holds 0 when `dist[ei][ej]` is not negative. -/
theorem trace_path_downhill (P : Pkg) (dist : Field) (ei ej : Int) (he : inb P ei ej)
    (hdh : Downhill P dist) (fuel : Nat) (hf : (dist ei ej).toNat ≤ fuel) :
    (∃ path fi fj,
      trace_path_walk P fuel dist ei ej = .ok (path, fi, fj, (dist ei ej).toNat) ∧
      trace_path P fuel dist ei ej = .ok path ∧
      inb P fi fj ∧ (0 ≤ dist ei ej → dist fi fj = 0)) ∧
    ∀ (dist1 : Field) (fuel1 : Nat), trace_path P fuel1 dist1 ei ej ≠ .panic := by
  refine ⟨?_, fun dist1 fuel1 => trace_path_no_panic P fuel1 dist1 ei ej he⟩
  obtain ⟨path, fi, fj, hw, hfin, hf0⟩ := trace_path_walk_downhill P dist ei ej he hdh fuel hf
  refine ⟨path, fi, fj, hw, ?_, hfin, hf0⟩
  rw [trace_path_eq_walk, hw]
  rfl

theorem trace_path_downhill_witness :
    (inb (hole 0 0) 2 3 ∧ Downhill (hole 0 0) slopeDist ∧ (slopeDist 2 3).toNat ≤ 5) ∧
    ((∃ path fi fj,
      trace_path_walk (hole 0 0) 5 slopeDist 2 3 = .ok (path, fi, fj, (slopeDist 2 3).toNat) ∧
      trace_path (hole 0 0) 5 slopeDist 2 3 = .ok path ∧
      inb (hole 0 0) fi fj ∧ (0 ≤ slopeDist 2 3 → slopeDist fi fj = 0)) ∧
    ∀ (dist1 : Field) (fuel1 : Nat), trace_path (hole 0 0) fuel1 dist1 2 3 ≠ .panic) :=
  ⟨⟨by decide, slopeDist_downhill _, by decide⟩,
    trace_path_downhill (hole 0 0) slopeDist 2 3 (by decide) (slopeDist_downhill _) 5 (by decide)⟩

/-- C11, on the code: when the start is not cell `(0, 0)`, no run of lines 131-139 of
`maze` has its trace end on the start cell: the run panics in `dig`, or every
distance is 0, the exit is `(0, 0)` and the loop of `trace_path` ends there
without a single iteration. -/
theorem trace_walk_misses_start (P : Pkg) (sh : Nat → List Int)
    (hsh : ∀ k, (sh k).Perm directions) (fuel : Nat) (hf : P.height * P.width < fuel)
    (sj si : Int) (hs : inb P si sj) (hne : ¬ (si = 0 ∧ sj = 0)) :
    ¬ ∃ grid dist e path fi fj n,
      maze_path P sh fuel sj si = .ok (grid, dist, e, path) ∧
      trace_path_walk P fuel dist e.1 e.2 = .ok (path, fi, fj, n) ∧ fi = si ∧ fj = sj := by
  rintro ⟨grid, dist, e, path, fi, fj, n, h, hw, e1, e2⟩
  rcases maze_path_cases P sh hsh fuel hf sj si hs with h1 | h1
  · rw [h1] at h; cases h
  · rw [h1] at h
    have h2 := Res.ok.inj h
    simp only [Prod.mk.injEq] at h2
    obtain ⟨_, rfl, rfl, _⟩ := h2
    have h00 : inb P 0 0 := by unfold inb at hs ⊢; omega
    unfold trace_path_walk at hw
    rw [if_neg (not_not.mpr h00),
      trace_walk_done P zeroField fuel 0 0 _ (by decide)] at hw
    have h3 := Res.ok.inj hw
    simp only [Prod.mk.injEq] at h3
    exact hne ⟨by rw [← e1]; exact h3.2.1.symm, by rw [← e2]; exact h3.2.2.1.symm⟩

theorem trace_walk_misses_start_witness :
    ((∀ k, (northFirst k).Perm directions) ∧ (hole 0 0).height * (hole 0 0).width < 2501 ∧
      inb (hole 0 0) 0 1 ∧ ¬ ((0 : Int) = 0 ∧ (1 : Int) = 0)) ∧
    maze_path (hole 0 0) northFirst 2501 1 0 = .panic ∧
    ¬ ∃ grid dist e path fi fj n,
      maze_path (hole 0 0) northFirst 2501 1 0 = .ok (grid, dist, e, path) ∧
      trace_path_walk (hole 0 0) 2501 dist e.1 e.2 = .ok (path, fi, fj, n) ∧
        fi = 0 ∧ fj = 1 :=
  ⟨⟨northFirst_perm, by decide, by decide, by decide⟩, rfl,
    trace_walk_misses_start (hole 0 0) northFirst northFirst_perm 2501 (by decide) 1 0
      (by decide) (by decide)⟩

/-! ### More claims about the maze that `dig` returns -/

theorem digLoop_north_row_zero (P : Pkg) (hP : namesPass P)
    (self : Int → Int → Field → Field → Nat → Res (Field × Field × Nat)) (j : Int) (hj : 0 ≤ j)
    (ds : List Int) (grid dist : Field) (k : Nat) :
    digLoop P self 0 j (north :: ds) grid dist k = .panic := by
  rw [digLoop_cons]
  have e1 : (0 : Int) + di north = -1 := rfl
  have e2 : j + dj north = j := by show j + 0 = j; ring
  rw [e1, e2]
  have hc : j ≥ 0 ∧ P.new_j < P.width ∧ P.new_i ≥ 0 ∧ (-1 : Int) < P.height :=
    ⟨hj, hP.1, hP.2, by omega⟩
  have hin : ¬ inb P (-1) j := by unfold inb; omega
  rw [if_pos hc, if_pos hin]

theorem digLoop_east_last_column (P : Pkg) (hP : namesPass P)
    (self : Int → Int → Field → Field → Nat → Res (Field × Field × Nat)) (i : Int)
    (hi : i < P.height) (ds : List Int) (grid dist : Field) (k : Nat) :
    digLoop P self i ((P.width : Int) - 1) (east :: ds) grid dist k = .panic := by
  rw [digLoop_cons]
  have e1 : i + di east = i := by show i + 0 = i; ring
  have e2 : (P.width : Int) - 1 + dj east = P.width := by show (P.width : Int) - 1 + 1 = _; ring
  rw [e1, e2]
  have hc : (P.width : Int) ≥ 0 ∧ P.new_j < P.width ∧ P.new_i ≥ 0 ∧ i < P.height :=
    ⟨by omega, hP.1, hP.2, hi⟩
  have hin : ¬ inb P i P.width := by unfold inb; omega
  rw [if_pos hc, if_pos hin]

/-- C13, on the code: with fuel above `height * width` a run of `dig` from the zero
arrays does end, but never as a return after `height * width` calls: it ends
in a panic, or it returns from its first call with nothing carved (the third
component of the result counts the calls, one shuffle each). -/
theorem dig_never_enters_every_cell (P : Pkg) (sh : Nat → List Int)
    (hsh : ∀ k, (sh k).Perm directions) (fuel : Nat) (hf : P.height * P.width < fuel)
    (si sj : Int) (hs : inb P si sj) (h1 : 1 < P.height * P.width) :
    dig P sh fuel si sj zeroField zeroField 0 ≠ .timeout ∧
    ¬ ∃ g d k1, dig P sh fuel si sj zeroField zeroField 0 = .ok (g, d, k1) ∧
      k1 = P.height * P.width := by
  constructor
  · by_cases hP : namesPass P
    · rw [dig_panics P hP sh hsh fuel hf si sj hs zeroField 0]
      exact fun h => Res.noConfusion h
    · obtain ⟨n, rfl⟩ : ∃ n, fuel = n + 1 := ⟨fuel - 1, by omega⟩
      rw [dig_names_fail P hP sh n si sj zeroField zeroField 0]
      exact fun h => Res.noConfusion h
  · rintro ⟨g, d, k1, h, hk⟩
    obtain ⟨_, _, _, hk1⟩ := dig_ok_uncarved P sh hsh fuel si sj hs zeroField 0 g d k1 h
    omega

theorem dig_never_enters_every_cell_witness :
    ((∀ k, (northFirst k).Perm directions) ∧ (hole 0 0).height * (hole 0 0).width < 2501 ∧
      inb (hole 0 0) 0 0 ∧ 1 < (hole 0 0).height * (hole 0 0).width) ∧
    dig (hole 0 0) northFirst 2501 0 0 zeroField zeroField 0 = .panic ∧
    (dig (hole 0 0) northFirst 2501 0 0 zeroField zeroField 0 ≠ .timeout ∧
    ¬ ∃ g d k1, dig (hole 0 0) northFirst 2501 0 0 zeroField zeroField 0 = .ok (g, d, k1) ∧
      k1 = (hole 0 0).height * (hole 0 0).width) :=
  ⟨⟨northFirst_perm, by decide, by decide, by decide⟩, rfl,
    dig_never_enters_every_cell (hole 0 0) northFirst northFirst_perm 2501 (by decide) 0 0
      (by decide) (by decide)⟩

/-- C14, on the code: when the two names read by line 31 pass its test, the test
lets `newi = -1` and `newj = width` through: a cell of row 0 looking north and a
cell of the last column looking east read `grid` outside the array, and every
run of `dig` from the zero arrays ends in that panic. Only when the names fail
the test is no index out of range, and then nothing is carved. -/
theorem dig_reads_out_of_range (P : Pkg) (sh : Nat → List Int)
    (hsh : ∀ k, (sh k).Perm directions) (fuel : Nat) (hf : P.height * P.width < fuel)
    (si sj : Int) (hs : inb P si sj) :
    (namesPass P → dig P sh fuel si sj zeroField zeroField 0 = .panic) ∧
    (¬ namesPass P → dig P sh fuel si sj zeroField zeroField 0 = .ok (zeroField, zeroField, 1)) ∧
    (namesPass P → ∀ self (j : Int) ds grid dist k, 0 ≤ j →
      digLoop P self 0 j (north :: ds) grid dist k = .panic) ∧
    (namesPass P → ∀ self (i : Int) ds grid dist k, i < P.height →
      digLoop P self i ((P.width : Int) - 1) (east :: ds) grid dist k = .panic) := by
  refine ⟨fun hP => dig_panics P hP sh hsh fuel hf si sj hs zeroField 0, ?_,
    fun hP self j ds grid dist k hj => digLoop_north_row_zero P hP self j hj ds grid dist k,
    fun hP self i ds grid dist k hi => digLoop_east_last_column P hP self i hi ds grid dist k⟩
  intro hP
  obtain ⟨n, rfl⟩ : ∃ n, fuel = n + 1 := ⟨fuel - 1, by omega⟩
  exact dig_names_fail P hP sh n si sj zeroField zeroField 0

theorem dig_reads_out_of_range_witness :
    ((∀ k, (northFirst k).Perm directions) ∧ (hole 0 0).height * (hole 0 0).width < 2501 ∧
      inb (hole 0 0) 0 0) ∧ namesPass (hole 0 0) ∧
    ((namesPass (hole 0 0) →
      dig (hole 0 0) northFirst 2501 0 0 zeroField zeroField 0 = .panic) ∧
    (¬ namesPass (hole 0 0) →
      dig (hole 0 0) northFirst 2501 0 0 zeroField zeroField 0 = .ok (zeroField, zeroField, 1)) ∧
    (namesPass (hole 0 0) → ∀ self (j : Int) ds grid dist k, 0 ≤ j →
      digLoop (hole 0 0) self 0 j (north :: ds) grid dist k = .panic) ∧
    (namesPass (hole 0 0) → ∀ self (i : Int) ds grid dist k, i < (hole 0 0).height →
      digLoop (hole 0 0) self i (((hole 0 0).width : Int) - 1) (east :: ds) grid dist k
        = .panic)) :=
  ⟨⟨northFirst_perm, by decide, by decide⟩, ⟨by decide, by decide⟩,
    dig_reads_out_of_range (hole 0 0) northFirst northFirst_perm 2501 (by decide) 0 0
      (by decide)⟩

/-! ### The frame of the picture -/

theorem flatMap_pair_getElem {α β : Type} (f g : α → β) (l : List α) :
    ∀ (j : Nat) (hj : j < l.length),
      (l.flatMap (fun a => [f a, g a]))[2 * j]? = some (f l[j]) ∧
      (l.flatMap (fun a => [f a, g a]))[2 * j + 1]? = some (g l[j]) := by
  induction l with
  | nil => intro j hj; simp at hj
  | cons a l ih =>
    intro j hj
    rw [List.flatMap_cons]
    show (f a :: g a :: l.flatMap (fun a => [f a, g a]))[2 * j]? = _ ∧
      (f a :: g a :: l.flatMap (fun a => [f a, g a]))[2 * j + 1]? = _
    cases j with
    | zero => simp
    | succ j =>
      have hj1 : j < l.length := by simpa using hj
      obtain ⟨h1, h2⟩ := ih j hj1
      have e1 : 2 * (j + 1) = (2 * j) + 1 + 1 := by ring
      have e2 : 2 * (j + 1) + 1 = (2 * j + 1) + 1 + 1 := by ring
      rw [e2, e1, List.getElem?_cons_succ, List.getElem?_cons_succ, List.getElem?_cons_succ,
        List.getElem?_cons_succ, List.getElem_cons_succ]
      exact ⟨h1, h2⟩

theorem flatMap_pair_range_getElem {β : Type} (f g : Nat → β) (n j : Nat) (hj : j < n) :
    ((List.range n).flatMap (fun a => [f a, g a]))[2 * j]? = some (f j) ∧
    ((List.range n).flatMap (fun a => [f a, g a]))[2 * j + 1]? = some (g j) := by
  have h := flatMap_pair_getElem f g (List.range n) j (by simpa using hj)
  simpa using h

theorem pictureRows_shape (P : Pkg) (grid : Field) (si sj ei ej : Int) (path : Field)
    (dp : Bool) :
    (pictureRows P grid si sj ei ej path (trackGlyph dp)).length = 2 * P.height + 1 ∧
    ∀ r ∈ pictureRows P grid si sj ei ej path (trackGlyph dp),
      r.length = 2 * P.width + 1 ∧ '\n' ∉ r := by
  constructor
  · unfold pictureRows
    rw [List.length_cons, flatMap_pair_length, List.length_range]
  · intro r hr
    unfold pictureRows at hr
    rcases List.mem_cons.mp hr with rfl | hr
    · refine ⟨by simp, ?_⟩
      intro hmem
      exact absurd (List.eq_of_mem_replicate hmem) (by decide)
    · obtain ⟨i, _, hi⟩ := List.mem_flatMap.mp hr
      simp only [List.mem_cons, List.mem_singleton, List.not_mem_nil, or_false] at hi
      rcases hi with rfl | rfl
      · exact topRow_shape P grid si sj ei ej path _ (trackGlyph_ne_newline _) i
      · exact bottomRow_shape P grid path _ (trackGlyph_ne_newline _) i

theorem pictureRows_getElem (P : Pkg) (grid : Field) (si sj ei ej : Int) (path : Field)
    (c : Char) (a : Nat) (r : List Char)
    (h : (pictureRows P grid si sj ei ej path c)[a]? = some r) :
    (a = 0 ∧ r = List.replicate (2 * P.width + 1) '█') ∨
    (∃ i, i < P.height ∧ a = 2 * i + 1 ∧ r = topRow P grid si sj ei ej path c i) ∨
    (∃ i, i < P.height ∧ a = 2 * i + 2 ∧ r = bottomRow P grid path c i) := by
  unfold pictureRows at h
  cases a with
  | zero =>
    rw [List.getElem?_cons_zero] at h
    exact Or.inl ⟨rfl, (Option.some.inj h).symm⟩
  | succ a =>
    right
    rw [List.getElem?_cons_succ] at h
    have hlen : a < 2 * P.height := by
      have := (List.getElem?_eq_some_iff.mp h).1
      rw [flatMap_pair_length, List.length_range] at this
      exact this
    obtain ⟨h1, h2⟩ := flatMap_pair_range_getElem
      (fun i => topRow P grid si sj ei ej path c i) (fun i => bottomRow P grid path c i)
      P.height (a / 2) (by omega)
    rcases Nat.mod_two_eq_zero_or_one a with hm | hm
    · left
      have ea : 2 * (a / 2) = a := by omega
      rw [ea, h] at h1
      exact ⟨a / 2, by omega, by omega, Option.some.inj h1⟩
    · right
      have ea : 2 * (a / 2) + 1 = a := by omega
      rw [ea, h] at h2
      exact ⟨a / 2, by omega, by omega, Option.some.inj h2⟩

theorem bottomRow_even (P : Pkg) (grid path : Field) (c : Char) (i b : Nat)
    (hb : b % 2 = 0) (hlt : b < 2 * P.width + 1) :
    (bottomRow P grid path c i)[b]? = some '█' := by
  unfold bottomRow
  cases b with
  | zero => exact List.getElem?_cons_zero
  | succ b =>
    rw [List.getElem?_cons_succ]
    have h2 := (flatMap_pair_range_getElem (fun j => southGlyph grid path c i j)
      (fun _ => '█') P.width (b / 2) (by omega)).2
    have eb : 2 * (b / 2) + 1 = b := by omega
    rw [eb] at h2
    exact h2

theorem eastGlyph_last_column (P : Pkg) (grid path : Field) (c : Char) (hd : drawable P grid)
    (i j : Nat) (hi : i < P.height) (hj : j + 1 = P.width) :
    eastGlyph grid path c i j = '█' := by
  unfold eastGlyph
  have h := (hd i j hi (by omega)).1
  by_cases hb : Int.land (grid i j) east ≠ 0
  · have := h hb; omega
  · rw [if_neg hb]

theorem southGlyph_last_row (P : Pkg) (grid path : Field) (c : Char) (hd : drawable P grid)
    (i j : Nat) (hi : i + 1 = P.height) (hj : j < P.width) :
    southGlyph grid path c i j = '█' := by
  unfold southGlyph
  have h := (hd i j (by omega) hj).2
  by_cases hb : Int.land (grid i j) south ≠ 0
  · have := h hb; omega
  · rw [if_neg hb]

theorem topRow_ends (P : Pkg) (grid : Field) (si sj ei ej : Int) (path : Field) (c : Char)
    (hd : drawable P grid) (i : Nat) (hi : i < P.height) :
    (topRow P grid si sj ei ej path c i).head? = some '█' ∧
    (topRow P grid si sj ei ej path c i).getLast? = some '█' := by
  constructor
  · rfl
  · rw [List.getLast?_eq_getElem?]
    unfold topRow
    rw [List.length_cons, flatMap_pair_length, List.length_range, Nat.add_sub_cancel]
    cases hw : P.width with
    | zero => rfl
    | succ n =>
      have e : 2 * (n + 1) = (2 * n + 1) + 1 := by ring
      rw [e, List.getElem?_cons_succ, ← hw]
      rw [(flatMap_pair_range_getElem (fun j => cellGlyph si sj ei ej path c i j)
        (fun j => eastGlyph grid path c i j) P.width n (by omega)).2,
        eastGlyph_last_column P grid path c hd i n hi (by omega)]

theorem bottomRow_ends (P : Pkg) (grid path : Field) (c : Char) (i : Nat) :
    (bottomRow P grid path c i).head? = some '█' ∧
    (bottomRow P grid path c i).getLast? = some '█' := by
  constructor
  · rfl
  · have hlen : (bottomRow P grid path c i).length = 2 * P.width + 1 := by
      unfold bottomRow
      rw [List.length_cons, flatMap_pair_length, List.length_range]
    rw [List.getLast?_eq_getElem?, hlen, Nat.add_sub_cancel]
    exact bottomRow_even P grid path c i (2 * P.width) (by omega) (by omega)

theorem wallRow_ends (n : Nat) :
    (List.replicate (n + 1) '█').head? = some '█' ∧
    (List.replicate (n + 1) '█').getLast? = some '█' := by
  constructor
  · rfl
  · rw [List.getLast?_eq_getElem?, List.length_replicate, Nat.add_sub_cancel,
      List.getElem?_replicate, if_pos (by omega)]

theorem bottomRow_last (P : Pkg) (grid path : Field) (c : Char) (hd : drawable P grid)
    (i : Nat) (hi : i + 1 = P.height) :
    bottomRow P grid path c i = List.replicate (2 * P.width + 1) '█' := by
  rw [List.eq_replicate_iff]
  constructor
  · unfold bottomRow
    rw [List.length_cons, flatMap_pair_length, List.length_range]
  · intro b hb
    unfold bottomRow at hb
    rcases List.mem_cons.mp hb with rfl | hb
    · rfl
    · obtain ⟨j, hj, hjb⟩ := List.mem_flatMap.mp hb
      simp only [List.mem_cons, List.mem_singleton, List.not_mem_nil, or_false] at hjb
      rcases hjb with rfl | rfl
      · exact southGlyph_last_row P grid path c hd i j hi (List.mem_range.mp hj)
      · rfl

theorem pictureRows_last (P : Pkg) (grid : Field) (si sj ei ej : Int) (path : Field)
    (c : Char) (hd : drawable P grid) :
    (pictureRows P grid si sj ei ej path c).getLast? =
      some (List.replicate (2 * P.width + 1) '█') := by
  rw [List.getLast?_eq_getElem?]
  unfold pictureRows
  rw [List.length_cons, flatMap_pair_length, List.length_range, Nat.add_sub_cancel]
  cases hh : P.height with
  | zero => rfl
  | succ n =>
    have e : 2 * (n + 1) = (2 * n + 1) + 1 := by ring
    rw [e, List.getElem?_cons_succ, ← hh]
    rw [(flatMap_pair_range_getElem (fun i => topRow P grid si sj ei ej path c i)
      (fun i => bottomRow P grid path c i) P.height n (by omega)).2,
      bottomRow_last P grid path c hd n (by omega)]

/-- C18: in a text returned by `draw`, in either mode and for any start, exit and path
field, the first and the last row are all wall glyphs, every row starts and
ends with a wall glyph, and every position at an even row and an even column
holds a wall glyph. This holds for every grid on which `draw` returns, so for
every grid `dig` produces. -/
theorem draw_enclosed (P : Pkg) (grid : Field) (si sj ei ej : Int) (path : Field)
    (draw_path : Bool) (s : String) (h : draw P grid si sj ei ej path draw_path = .ok s) :
    ∃ rows : List (List Char),
      s.data = rows.flatMap (fun r => r ++ ['\n']) ∧
      rows.length = 2 * P.height + 1 ∧
      (∀ r ∈ rows, r.length = 2 * P.width + 1 ∧ '\n' ∉ r) ∧
      rows.head? = some (List.replicate (2 * P.width + 1) '█') ∧
      rows.getLast? = some (List.replicate (2 * P.width + 1) '█') ∧
      (∀ r ∈ rows, r.head? = some '█' ∧ r.getLast? = some '█') ∧
      (∀ (a b : Nat) (r : List Char), rows[a]? = some r → a % 2 = 0 → b % 2 = 0 →
        b < 2 * P.width + 1 → r[b]? = some '█') := by
  obtain ⟨hd, rfl⟩ := draw_ok_inv P grid si sj ei ej path draw_path s h
  obtain ⟨hlen, hshape⟩ := pictureRows_shape P grid si sj ei ej path draw_path
  refine ⟨pictureRows P grid si sj ei ej path (trackGlyph draw_path), rfl, hlen, hshape, rfl,
    pictureRows_last P grid si sj ei ej path _ hd, ?_, ?_⟩
  · intro r hr
    obtain ⟨a, ha⟩ := List.getElem?_of_mem hr
    rcases pictureRows_getElem P grid si sj ei ej path _ a r ha with
      ⟨_, rfl⟩ | ⟨i, hi, _, rfl⟩ | ⟨i, _, _, rfl⟩
    · exact wallRow_ends _
    · exact topRow_ends P grid si sj ei ej path _ hd i hi
    · exact bottomRow_ends P grid path _ i
  · intro a b r ha hae hbe hb
    rcases pictureRows_getElem P grid si sj ei ej path _ a r ha with
      ⟨_, rfl⟩ | ⟨i, _, hai, rfl⟩ | ⟨i, _, _, rfl⟩
    · rw [List.getElem?_replicate, if_pos hb]
    · omega
    · exact bottomRow_even P grid path _ i b hbe hb

theorem draw_enclosed_witness :
    draw (hole 0 0) sampleGrid 0 0 0 1 samplePath true =
        .ok ⟨picture (hole 0 0) sampleGrid 0 0 0 1 samplePath '.'⟩ ∧
      ∃ rows : List (List Char),
        (String.mk (picture (hole 0 0) sampleGrid 0 0 0 1 samplePath '.')).data =
          rows.flatMap (fun r => r ++ ['\n']) ∧
        rows.length = 2 * 50 + 1 ∧
        (∀ r ∈ rows, r.length = 2 * 50 + 1 ∧ '\n' ∉ r) ∧
        rows.head? = some (List.replicate (2 * 50 + 1) '█') ∧
        rows.getLast? = some (List.replicate (2 * 50 + 1) '█') ∧
        (∀ r ∈ rows, r.head? = some '█' ∧ r.getLast? = some '█') ∧
        (∀ (a b : Nat) (r : List Char), rows[a]? = some r → a % 2 = 0 → b % 2 = 0 →
          b < 2 * 50 + 1 → r[b]? = some '█') :=
  ⟨draw_ok _ _ _ _ _ _ _ true sampleGrid_drawable,
    draw_enclosed (hole 0 0) sampleGrid 0 0 0 1 samplePath true _
      (draw_ok _ _ _ _ _ _ _ true sampleGrid_drawable)⟩

/-! ### What holds of every maze `dig` returns

Lines 32 and 34 set the two bits of a passage together, and line 31 lets them be
set only when the neighbour is inside the grid (otherwise the run panics
before line 32). So matching pairs are an invariant of the carving, from any
grid that has them (`dig_matching`); with them comes that `draw` stays inside
`path` (`matching_drawable`). -/

theorem lor_dir_range (m a : Int) (h0 : 0 ≤ m) (h1 : m < 16) (ha : a ∈ directions) :
    0 ≤ Int.lor m a ∧ Int.lor m a < 16 := by
  rcases mem_directions ha with rfl | rfl | rfl | rfl <;> interval_cases m <;> decide

theorem land_lor_dir (m a b : Int) (h0 : 0 ≤ m) (h1 : m < 16) (ha : a ∈ directions)
    (hb : b ∈ directions) :
    Int.land (Int.lor m a) b ≠ 0 ↔ (Int.land m b ≠ 0 ∨ a = b) := by
  rcases mem_directions ha with rfl | rfl | rfl | rfl <;>
    rcases mem_directions hb with rfl | rfl | rfl | rfl <;> interval_cases m <;> decide

theorem land_fifteen (m : Int) (h0 : 0 ≤ m) (h1 : m < 16) : Int.land m 15 = m := by
  interval_cases m <;> decide

theorem dir_data {d : Int} (hd : d ∈ directions) :
    (d = 1 ∧ di d = -1 ∧ dj d = 0 ∧ opposite d = 2) ∨
    (d = 2 ∧ di d = 1 ∧ dj d = 0 ∧ opposite d = 1) ∨
    (d = 4 ∧ di d = 0 ∧ dj d = -1 ∧ opposite d = 8) ∨
    (d = 8 ∧ di d = 0 ∧ dj d = 1 ∧ opposite d = 4) := by
  rcases mem_directions hd with rfl | rfl | rfl | rfl <;> decide

theorem carve_apply (g : Field) (i j d : Int) (hd : d ∈ directions) (x y : Int) :
    carve g i j d x y =
      if x = i + di d ∧ y = j + dj d then Int.lor (g (i + di d) (j + dj d)) (opposite d)
      else if x = i ∧ y = j then Int.lor (g i j) d else g x y := by
  have hne : ¬ (i + di d = i ∧ j + dj d = j) := by
    rcases dir_data hd with h | h | h | h <;> omega
  unfold carve Field.set
  rw [if_neg hne]

theorem carve_land (P : Pkg) (g : Field) (hg : Matching P g) (i j d : Int) (hij : inb P i j)
    (hd : d ∈ directions) (hn : inb P (i + di d) (j + dj d)) (x y : Int) (b : Int)
    (hb : b ∈ directions) :
    Int.land (carve g i j d x y) b ≠ 0 ↔
      (Int.land (g x y) b ≠ 0 ∨ (x = i ∧ y = j ∧ b = d) ∨
        (x = i + di d ∧ y = j + dj d ∧ b = opposite d)) := by
  have hne : ¬ (i + di d = i ∧ j + dj d = j) := by
    rcases dir_data hd with h | h | h | h <;> omega
  rw [carve_apply g i j d hd]
  by_cases h1 : x = i + di d ∧ y = j + dj d
  · rw [if_pos h1]
    obtain ⟨rfl, rfl⟩ := h1
    have hr := (hg _ _ hn).1
    rw [land_lor_dir _ _ _ hr.1 hr.2 (opposite_mem hd) hb]
    constructor
    · rintro (h | h)
      · exact Or.inl h
      · exact Or.inr (Or.inr ⟨rfl, rfl, h.symm⟩)
    · rintro (h | ⟨h2, h3, _⟩ | ⟨_, _, h⟩)
      · exact Or.inl h
      · exact absurd ⟨h2, h3⟩ hne
      · exact Or.inr h.symm
  · rw [if_neg h1]
    by_cases h2 : x = i ∧ y = j
    · rw [if_pos h2]
      obtain ⟨rfl, rfl⟩ := h2
      have hr := (hg _ _ hij).1
      rw [land_lor_dir _ _ _ hr.1 hr.2 hd hb]
      constructor
      · rintro (h | h)
        · exact Or.inl h
        · exact Or.inr (Or.inl ⟨rfl, rfl, h.symm⟩)
      · rintro (h | ⟨_, _, h⟩ | ⟨h3, h4, _⟩)
        · exact Or.inl h
        · exact Or.inr h.symm
        · exact absurd ⟨h3, h4⟩ h1
    · rw [if_neg h2]
      constructor
      · exact fun h => Or.inl h
      · rintro (h | ⟨h3, h4, _⟩ | ⟨h3, h4, _⟩)
        · exact h
        · exact absurd ⟨h3, h4⟩ h2
        · exact absurd ⟨h3, h4⟩ h1

theorem carve_range (P : Pkg) (g : Field) (hg : Matching P g) (i j d : Int) (hij : inb P i j)
    (hd : d ∈ directions) (hn : inb P (i + di d) (j + dj d)) (x y : Int) (hxy : inb P x y) :
    0 ≤ carve g i j d x y ∧ carve g i j d x y < 16 := by
  rw [carve_apply g i j d hd]
  by_cases h1 : x = i + di d ∧ y = j + dj d
  · rw [if_pos h1]
    have hr := (hg _ _ hn).1
    exact lor_dir_range _ _ hr.1 hr.2 (opposite_mem hd)
  · rw [if_neg h1]
    by_cases h2 : x = i ∧ y = j
    · rw [if_pos h2]
      have hr := (hg _ _ hij).1
      exact lor_dir_range _ _ hr.1 hr.2 hd
    · rw [if_neg h2]
      exact (hg _ _ hxy).1

theorem carve_matching (P : Pkg) (g : Field) (hg : Matching P g) (i j d : Int) (hij : inb P i j)
    (hd : d ∈ directions) (hn : inb P (i + di d) (j + dj d)) : Matching P (carve g i j d) := by
  intro x y hxy
  refine ⟨carve_range P g hg i j d hij hd hn x y hxy, ?_⟩
  intro dir hdir
  have hodir := opposite_mem hdir
  rw [carve_land P g hg i j d hij hd hn x y dir hdir,
    carve_land P g hg i j d hij hd hn _ _ (opposite dir) hodir]
  have h0 := (hg x y hxy).2 dir hdir
  have hA : (x = i ∧ y = j ∧ dir = d) ↔
      (x + di dir = i + di d ∧ y + dj dir = j + dj d ∧ opposite dir = opposite d) := by
    rcases dir_data hdir with h | h | h | h <;> rcases dir_data hd with k | k | k | k <;>
      constructor <;> intro hh <;> refine ⟨?_, ?_, ?_⟩ <;> omega
  have hB : (x = i + di d ∧ y = j + dj d ∧ dir = opposite d) ↔
      (x + di dir = i ∧ y + dj dir = j ∧ opposite dir = d) := by
    rcases dir_data hdir with h | h | h | h <;> rcases dir_data hd with k | k | k | k <;>
      constructor <;> intro hh <;> refine ⟨?_, ?_, ?_⟩ <;> omega
  by_cases hin : inb P (x + di dir) (y + dj dir)
  · have h0' : Int.land (g x y) dir ≠ 0 ↔
        Int.land (g (x + di dir) (y + dj dir)) (opposite dir) ≠ 0 :=
      h0.trans ⟨fun h => h.2, fun h => ⟨hin, h⟩⟩
    rw [h0', hA, hB]
    constructor
    · rintro (h | h | h)
      · exact ⟨hin, Or.inl h⟩
      · exact ⟨hin, Or.inr (Or.inr h)⟩
      · exact ⟨hin, Or.inr (Or.inl h)⟩
    · rintro ⟨_, h | h | h⟩
      · exact Or.inl h
      · exact Or.inr (Or.inr h)
      · exact Or.inr (Or.inl h)
  · constructor
    · rintro (h | h | h)
      · exact absurd (h0.mp h).1 hin
      · exfalso; apply hin
        have := hA.mp h
        rw [this.1, this.2.1]; exact hn
      · exfalso; apply hin
        have := hB.mp h
        rw [this.1, this.2.1]; exact hij
    · exact fun h => absurd h.1 hin

theorem zeroField_matching (P : Pkg) : Matching P zeroField := by
  intro i j _
  refine ⟨⟨le_refl _, (by decide : (0 : Int) < 16)⟩, ?_⟩
  intro dir _
  have h1 : Int.land (zeroField i j) dir = 0 := land_zero_left dir
  have h2 : Int.land (zeroField (i + di dir) (j + dj dir)) (opposite dir) = 0 :=
    land_zero_left _
  constructor
  · exact fun h => absurd h1 h
  · exact fun h => absurd h2 h.2

theorem digLoop_matching (P : Pkg)
    (self : Int → Int → Field → Field → Nat → Res (Field × Field × Nat)) (i j : Int)
    (hself : ∀ a b grid dist k g d k1, Matching P grid → self a b grid dist k = .ok (g, d, k1) →
      Matching P g) :
    ∀ (ds : List Int), (∀ x ∈ ds, x ∈ directions) →
      ∀ grid dist k g d k1, Matching P grid → digLoop P self i j ds grid dist k = .ok (g, d, k1) →
        Matching P g := by
  intro ds
  induction ds with
  | nil =>
    intro _ grid dist k g d k1 hm h
    have hg : grid = g := congrArg Prod.fst (Res.ok.inj h)
    exact hg ▸ hm
  | cons dd ds ih =>
    intro hds grid dist k g d k1 hm h
    have hdd : dd ∈ directions := hds dd (List.mem_cons_self _ _)
    have ih1 := ih (fun x hx => hds x (List.mem_cons_of_mem _ hx))
    rw [digLoop_cons] at h
    by_cases hc : j + dj dd ≥ 0 ∧ P.new_j < P.width ∧ P.new_i ≥ 0 ∧ i + di dd < P.height
    · rw [if_pos hc] at h
      by_cases hin : inb P (i + di dd) (j + dj dd)
      · rw [if_neg (not_not.mpr hin)] at h
        by_cases hz : grid (i + di dd) (j + dj dd) = 0
        · rw [if_pos hz] at h
          by_cases hij : inb P i j
          · rw [if_neg (not_not.mpr hij)] at h
            have hm2 : Matching P (carve grid i j dd) := carve_matching P grid hm i j dd hij hdd hin
            change (match self (i + di dd) (j + dj dd) (carve grid i j dd)
              (dist.set (i + di dd) (j + dj dd) (dist i j + 1)) k with
              | .ok (g, ds1, k1) => digLoop P self i j ds g ds1 k1
              | .panic => .panic
              | .timeout => .timeout) = _ at h
            cases hs : self (i + di dd) (j + dj dd) (carve grid i j dd)
                (dist.set (i + di dd) (j + dj dd) (dist i j + 1)) k with
            | panic => rw [hs] at h; cases h
            | timeout => rw [hs] at h; cases h
            | ok r =>
              obtain ⟨g3, d3, k3⟩ := r
              rw [hs] at h
              exact ih1 _ _ _ _ _ _ (hself _ _ _ _ _ _ _ _ hm2 hs) h
          · rw [if_pos hij] at h; cases h
        · rw [if_neg hz] at h
          exact ih1 _ _ _ _ _ _ hm h
      · rw [if_pos hin] at h; cases h
    · rw [if_neg hc] at h
      exact ih1 _ _ _ _ _ _ hm h

theorem dig_matching (P : Pkg) (sh : Nat → List Int) (hsh : ∀ k, (sh k).Perm directions)
    (fuel : Nat) :
    ∀ a b grid dist k g d k1, Matching P grid → dig P sh fuel a b grid dist k = .ok (g, d, k1) →
      Matching P g := by
  induction fuel with
  | zero => intro a b grid dist k g d k1 _ h; cases h
  | succ fuel ih =>
    intro a b grid dist k g d k1 hm h
    have h1 : digLoop P (dig P sh fuel) a b (sh k) grid dist (k + 1) = .ok (g, d, k1) := h
    exact digLoop_matching P _ a b ih (sh k) (fun x hx => (hsh k).mem_iff.mp hx)
      _ _ _ _ _ _ hm h1

theorem matching_drawable (P : Pkg) (g : Field) (hm : Matching P g) : drawable P g := by
  intro i j hi hj
  have hin : inb P i j := by unfold inb; omega
  have hall := (hm i j hin).2
  constructor
  · intro hb
    have h := ((hall east (by decide)).mp hb).1
    have e1 : di east = 0 := rfl
    have e2 : dj east = 1 := rfl
    rw [e1, e2] at h
    unfold inb at h; omega
  · intro hb
    have h := ((hall south (by decide)).mp hb).1
    have e1 : di south = 1 := rfl
    have e2 : dj south = 0 := rfl
    rw [e1, e2] at h
    unfold inb at h; omega

theorem pairedGrid_matching : Matching (hole 0 0) pairedGrid := by
  intro i j hin
  have hh : ((hole 0 0).height : Int) = 50 := rfl
  have hw : ((hole 0 0).width : Int) = 50 := rfl
  unfold inb at hin
  rw [hh, hw] at hin
  have l1 : Int.land east north = 0 := by decide
  have l2 : Int.land east south = 0 := by decide
  have l3 : Int.land east west = 0 := by decide
  have l4 : Int.land east east = 8 := by decide
  have l5 : Int.land west north = 0 := by decide
  have l6 : Int.land west south = 0 := by decide
  have l7 : Int.land west west = 4 := by decide
  have l8 : Int.land west east = 0 := by decide
  have l9 : ∀ x, Int.land 0 x = 0 := land_zero_left
  constructor
  · unfold pairedGrid
    split_ifs <;> decide
  · intro dir hdir
    rcases mem_directions hdir with rfl | rfl | rfl | rfl
    · have e1 : di north = -1 := rfl
      have e2 : dj north = 0 := rfl
      have e3 : opposite north = south := rfl
      rw [e1, e2, e3]
      unfold pairedGrid
      constructor
      · intro h; exfalso; split_ifs at h <;> simp [l1, l5, l9] at h
      · rintro ⟨_, h⟩; exfalso; split_ifs at h <;> simp [l2, l6, l9] at h
    · have e1 : di south = 1 := rfl
      have e2 : dj south = 0 := rfl
      have e3 : opposite south = north := rfl
      rw [e1, e2, e3]
      unfold pairedGrid
      constructor
      · intro h; exfalso; split_ifs at h <;> simp [l2, l6, l9] at h
      · rintro ⟨_, h⟩; exfalso; split_ifs at h <;> simp [l1, l5, l9] at h
    · have e1 : di west = 0 := rfl
      have e2 : dj west = -1 := rfl
      have e3 : opposite west = east := rfl
      rw [e1, e2, e3]
      unfold pairedGrid inb
      rw [hh, hw]
      constructor
      · intro h
        split_ifs at h with c1 c2
        · simp [l9] at h
        · simp [l3] at h
        · refine ⟨by omega, ?_⟩
          rw [if_neg (by omega), if_pos (by omega), l4]
          decide
      · rintro ⟨hb, h⟩
        split_ifs at h with c1 c2
        · simp [l9] at h
        · rw [if_neg (by omega), if_neg (by omega), l7]
          decide
        · simp [l8] at h
    · have e1 : di east = 0 := rfl
      have e2 : dj east = 1 := rfl
      have e3 : opposite east = west := rfl
      rw [e1, e2, e3]
      unfold pairedGrid inb
      rw [hh, hw]
      constructor
      · intro h
        split_ifs at h with c1 c2
        · simp [l9] at h
        · refine ⟨by omega, ?_⟩
          rw [if_neg (by omega), if_neg (by omega), l7]
          decide
        · simp [l8] at h
      · rintro ⟨hb, h⟩
        split_ifs at h with c1 c2
        · simp [l9] at h
        · simp [l3] at h
        · rw [if_neg (by omega), if_pos (by omega), l4]
          decide

theorem dig_pairedGrid :
    dig (hole 0 0) northFirst 2 5 4 pairedGrid zeroField 0 =
      .ok (carve pairedGrid 5 4 east, zeroField.set 5 5 1, 2) := by
  rfl

theorem uniqueDownhill_steps (P : Pkg) (g d : Field) (h : UniqueDownhill P g d) :
    StepsThroughPassages P g d := by
  intro i j a b hin hpos hs
  obtain ⟨dir2, hd2, ha, hb, hab, hdist⟩ := trace_step_some P d i j (d i j) directions a b hs
  obtain ⟨dir, hdir, ⟨_, _, h1, h2⟩, huniq⟩ := h i j hin hpos
  have e : dir2 = dir := huniq dir2 hd2 (ha ▸ hb ▸ hab) (ha ▸ hb ▸ hdist)
  subst e
  exact ⟨dir2, hd2, ha, hb, h1, ha ▸ hb ▸ h2⟩

/-- C7: in a grid returned by `dig`, started on the all-zero grid or on any grid whose
passages already come in matching pairs, for every cell and every direction
the cell has the bit of the direction exactly when the neighbour in that
direction is inside the grid and has the opposite bit, and every mask is made
of the four direction bits only. -/
theorem dig_matching_pairs (P : Pkg) (sh : Nat → List Int) (hsh : ∀ k, (sh k).Perm directions)
    (fuel : Nat) (si sj : Int) (grid dist : Field) (k : Nat) (g d : Field) (k1 : Nat)
    (hg : Matching P grid) (h : dig P sh fuel si sj grid dist k = .ok (g, d, k1)) :
    ∀ i j, inb P i j →
      (∀ dir ∈ directions, (Int.land (g i j) dir ≠ 0 ↔
        (inb P (i + di dir) (j + dj dir) ∧
          Int.land (g (i + di dir) (j + dj dir)) (opposite dir) ≠ 0))) ∧
      Int.land (g i j) 15 = g i j := by
  intro i j hin
  have hm := dig_matching P sh hsh fuel si sj grid dist k g d k1 hg h i j hin
  exact ⟨hm.2, land_fifteen _ hm.1.1 hm.1.2⟩

theorem dig_matching_pairs_witness :
    ((∀ k, (northFirst k).Perm directions) ∧ Matching (hole 0 50) zeroField ∧
      dig (hole 0 50) northFirst 1 0 0 zeroField zeroField 0 = .ok (zeroField, zeroField, 1) ∧
      ∀ i j, inb (hole 0 50) i j →
        (∀ dir ∈ directions, (Int.land (zeroField i j) dir ≠ 0 ↔
          (inb (hole 0 50) (i + di dir) (j + dj dir) ∧
            Int.land (zeroField (i + di dir) (j + dj dir)) (opposite dir) ≠ 0))) ∧
        Int.land (zeroField i j) 15 = zeroField i j) ∧
    (Matching (hole 0 0) pairedGrid ∧
      dig (hole 0 0) northFirst 2 5 4 pairedGrid zeroField 0 =
        .ok (carve pairedGrid 5 4 east, zeroField.set 5 5 1, 2) ∧
      Int.land (carve pairedGrid 5 4 east 5 4) east ≠ 0 ∧
      ∀ i j, inb (hole 0 0) i j →
        (∀ dir ∈ directions, (Int.land (carve pairedGrid 5 4 east i j) dir ≠ 0 ↔
          (inb (hole 0 0) (i + di dir) (j + dj dir) ∧
            Int.land (carve pairedGrid 5 4 east (i + di dir) (j + dj dir)) (opposite dir) ≠ 0))) ∧
        Int.land (carve pairedGrid 5 4 east i j) 15 = carve pairedGrid 5 4 east i j) :=
  ⟨⟨northFirst_perm, zeroField_matching _, rfl,
      dig_matching_pairs (hole 0 50) northFirst northFirst_perm 1 0 0 zeroField zeroField 0
        zeroField zeroField 1 (zeroField_matching _) rfl⟩,
    ⟨pairedGrid_matching, dig_pairedGrid, by decide,
      dig_matching_pairs (hole 0 0) northFirst northFirst_perm 2 5 4 pairedGrid zeroField 0
        _ _ 2 pairedGrid_matching dig_pairedGrid⟩⟩

/-- C17: in a grid returned by `dig`, started on the all-zero grid or on any grid whose
passages already come in matching pairs, no cell of the last column has the
east bit and no cell of the last row has the south bit, so `draw` reads
`path[i][j+1]` and `path[i+1][j]` inside the array only: for every start, exit, path
field and mode it returns the picture and does not panic. -/
theorem dig_grid_drawable (P : Pkg) (sh : Nat → List Int) (hsh : ∀ k, (sh k).Perm directions)
    (fuel : Nat) (si sj : Int) (grid dist : Field) (k : Nat) (g d : Field) (k1 : Nat)
    (hg : Matching P grid) (h : dig P sh fuel si sj grid dist k = .ok (g, d, k1)) :
    (∀ i j : Nat, i < P.height → j + 1 = P.width → Int.land (g i j) east = 0) ∧
    (∀ i j : Nat, i + 1 = P.height → j < P.width → Int.land (g i j) south = 0) ∧
    ∀ (si1 sj1 ei ej : Int) (path : Field) (draw_path : Bool),
      draw P g si1 sj1 ei ej path draw_path =
        .ok ⟨picture P g si1 sj1 ei ej path (trackGlyph draw_path)⟩ := by
  have hd : drawable P g :=
    matching_drawable P g (dig_matching P sh hsh fuel si sj grid dist k g d k1 hg h)
  refine ⟨?_, ?_, fun si1 sj1 ei ej path dp => draw_ok P g si1 sj1 ei ej path dp hd⟩
  · intro i j hi hj
    by_contra hne
    have := (hd i j hi (by omega)).1 hne
    omega
  · intro i j hi hj
    by_contra hne
    have := (hd i j (by omega) hj).2 hne
    omega

theorem dig_grid_drawable_witness :
    ((∀ k, (northFirst k).Perm directions) ∧ Matching (hole 0 50) zeroField ∧
      dig (hole 0 50) northFirst 1 0 0 zeroField zeroField 0 = .ok (zeroField, zeroField, 1) ∧
      (∀ i j : Nat, i < (hole 0 50).height → j + 1 = (hole 0 50).width →
        Int.land (zeroField i j) east = 0) ∧
      (∀ i j : Nat, i + 1 = (hole 0 50).height → j < (hole 0 50).width →
        Int.land (zeroField i j) south = 0) ∧
      ∀ (si1 sj1 ei ej : Int) (path : Field) (draw_path : Bool),
        draw (hole 0 50) zeroField si1 sj1 ei ej path draw_path =
          .ok ⟨picture (hole 0 50) zeroField si1 sj1 ei ej path (trackGlyph draw_path)⟩) ∧
    (Matching (hole 0 0) pairedGrid ∧
      dig (hole 0 0) northFirst 2 5 4 pairedGrid zeroField 0 =
        .ok (carve pairedGrid 5 4 east, zeroField.set 5 5 1, 2) ∧
      (∀ i j : Nat, i < (hole 0 0).height → j + 1 = (hole 0 0).width →
        Int.land (carve pairedGrid 5 4 east i j) east = 0) ∧
      (∀ i j : Nat, i + 1 = (hole 0 0).height → j < (hole 0 0).width →
        Int.land (carve pairedGrid 5 4 east i j) south = 0) ∧
      ∀ (si1 sj1 ei ej : Int) (path : Field) (draw_path : Bool),
        draw (hole 0 0) (carve pairedGrid 5 4 east) si1 sj1 ei ej path draw_path =
          .ok ⟨picture (hole 0 0) (carve pairedGrid 5 4 east) si1 sj1 ei ej path
            (trackGlyph draw_path)⟩) :=
  ⟨⟨northFirst_perm, zeroField_matching _, rfl,
      dig_grid_drawable (hole 0 50) northFirst northFirst_perm 1 0 0 zeroField zeroField 0
        zeroField zeroField 1 (zeroField_matching _) rfl⟩,
    ⟨pairedGrid_matching, dig_pairedGrid,
      dig_grid_drawable (hole 0 0) northFirst northFirst_perm 2 5 4 pairedGrid zeroField 0
        _ _ 2 pairedGrid_matching dig_pairedGrid⟩⟩

/-- C10: in every maze `dig` returns from the zero arrays, each cell at a positive
distance `d` has exactly one neighbour inside the grid at distance `d - 1`, joined
to it by an open passage, so that every step the inner loop of `trace_path`
takes goes through an open passage. On this code no returned maze has a cell
at a positive distance: `dig` returns only when nothing was carved. -/
theorem dig_unique_downhill (P : Pkg) (sh : Nat → List Int)
    (hsh : ∀ k, (sh k).Perm directions) (fuel : Nat) (si sj : Int) (hs : inb P si sj)
    (g d : Field) (k1 : Nat)
    (h : dig P sh fuel si sj zeroField zeroField 0 = .ok (g, d, k1)) :
    UniqueDownhill P g d ∧ StepsThroughPassages P g d ∧
      ∀ g1 d1, UniqueDownhill P g1 d1 → StepsThroughPassages P g1 d1 := by
  obtain ⟨_, _, rfl, _⟩ := dig_ok_uncarved P sh hsh fuel si sj hs zeroField 0 g d k1 h
  have hu : UniqueDownhill P g zeroField := fun i j _ hpos => absurd hpos (lt_irrefl _)
  exact ⟨hu, uniqueDownhill_steps P g _ hu, fun g1 d1 => uniqueDownhill_steps P g1 d1⟩

theorem dig_unique_downhill_witness :
    ((∀ k, (northFirst k).Perm directions) ∧ inb (hole 0 50) 0 0 ∧
      dig (hole 0 50) northFirst 1 0 0 zeroField zeroField 0 = .ok (zeroField, zeroField, 1)) ∧
    (UniqueDownhill (hole 0 50) zeroField zeroField ∧
      StepsThroughPassages (hole 0 50) zeroField zeroField ∧
      ∀ g1 d1, UniqueDownhill (hole 0 50) g1 d1 → StepsThroughPassages (hole 0 50) g1 d1) :=
  ⟨⟨northFirst_perm, by decide, rfl⟩,
    dig_unique_downhill (hole 0 50) northFirst northFirst_perm 1 0 0 (by decide)
      zeroField zeroField 1 rfl⟩

theorem trace_cells_marks (P : Pkg) (dist : Field) (fuel : Nat) :
    ∀ (i j d : Int) (path : Field) (cells : List (Int × Int)),
      (∀ x y, path x y ≠ 0 ↔ (x, y) ∈ cells) →
      ∀ path1 cells1, trace_loop P dist fuel i j d path = .ok path1 →
        trace_cells P dist fuel i j d cells = .ok cells1 →
        ∀ x y, path1 x y ≠ 0 ↔ (x, y) ∈ cells1 := by
  induction fuel with
  | zero =>
    intro i j d path cells hinv path1 cells1 h1 h2
    unfold trace_loop at h1
    unfold trace_cells at h2
    split_ifs at h1 h2
    rw [← Res.ok.inj h1, ← Res.ok.inj h2]
    exact hinv
  | succ fuel ih =>
    intro i j d path cells hinv path1 cells1 h1 h2
    unfold trace_loop at h1
    unfold trace_cells at h2
    split_ifs at h1 h2
    · cases hs : trace_step P dist i j d directions with
      | none =>
        rw [hs] at h1 h2
        exact ih i j d path cells hinv path1 cells1 h1 h2
      | some ab =>
        obtain ⟨a, b⟩ := ab
        rw [hs] at h1 h2
        refine ih a b (d - 1) _ _ ?_ path1 cells1 h1 h2
        intro x y
        unfold Field.set
        rw [List.mem_append, List.mem_singleton, Prod.mk.injEq]
        by_cases hxy : x = a ∧ y = b
        · rw [if_pos hxy]
          exact ⟨fun _ => Or.inr hxy, fun _ => by decide⟩
        · rw [if_neg hxy, hinv x y]
          exact ⟨fun h => Or.inl h, fun h => h.resolve_right hxy⟩
    · rw [← Res.ok.inj h1, ← Res.ok.inj h2]
      exact hinv

theorem trace_path_cells_marks (P : Pkg) (fuel : Nat) (dist : Field) (ei ej : Int)
    (path : Field) (cells : List (Int × Int))
    (h1 : trace_path P fuel dist ei ej = .ok path)
    (h2 : trace_path_cells P fuel dist ei ej = .ok cells) :
    ∀ x y, path x y ≠ 0 ↔ (x, y) ∈ cells := by
  unfold trace_path at h1
  unfold trace_path_cells at h2
  split_ifs at h1 h2
  refine trace_cells_marks P dist fuel ei ej _ _ _ ?_ path cells h1 h2
  intro x y
  unfold Field.set zeroField
  rw [List.mem_singleton, Prod.mk.injEq]
  by_cases hxy : x = ei ∧ y = ej
  · rw [if_pos hxy]
    exact ⟨fun _ => hxy, fun _ => by decide⟩
  · rw [if_neg hxy]
    exact ⟨fun h => absurd rfl h, fun h => absurd h hxy⟩

theorem glyphAt_east (P : Pkg) (grid : Field) (si sj ei ej : Int) (path : Field) (c : Char)
    (i j : Nat) (hi : i < P.height) (hj : j < P.width) :
    glyphAt (pictureRows P grid si sj ei ej path c) (2 * i + 1) (2 * j + 2) =
      some (eastGlyph grid path c i j) := by
  unfold glyphAt pictureRows
  rw [List.getElem?_cons_succ,
    (flatMap_pair_range_getElem (fun i => topRow P grid si sj ei ej path c i)
      (fun i => bottomRow P grid path c i) P.height i hi).1]
  show (topRow P grid si sj ei ej path c i)[2 * j + 1 + 1]? = _
  unfold topRow
  rw [List.getElem?_cons_succ]
  exact (flatMap_pair_range_getElem (fun j => cellGlyph si sj ei ej path c i j)
    (fun j => eastGlyph grid path c i j) P.width j hj).2

theorem glyphAt_south (P : Pkg) (grid : Field) (si sj ei ej : Int) (path : Field) (c : Char)
    (i j : Nat) (hi : i < P.height) (hj : j < P.width) :
    glyphAt (pictureRows P grid si sj ei ej path c) (2 * i + 2) (2 * j + 1) =
      some (southGlyph grid path c i j) := by
  unfold glyphAt pictureRows
  rw [show 2 * i + 2 = (2 * i + 1) + 1 from rfl, List.getElem?_cons_succ,
    (flatMap_pair_range_getElem (fun i => topRow P grid si sj ei ej path c i)
      (fun i => bottomRow P grid path c i) P.height i hi).2]
  show (bottomRow P grid path c i)[2 * j + 1]? = _
  unfold bottomRow
  rw [List.getElem?_cons_succ]
  exact (flatMap_pair_range_getElem (fun j => southGlyph grid path c i j)
    (fun _ => '█') P.width j hj).1

theorem maze_path_ok_inv (P : Pkg) (sh : Nat → List Int) (hsh : ∀ k, (sh k).Perm directions)
    (fuel : Nat) (sj si : Int) (hs : inb P si sj) (grid dist : Field) (e : Int × Int)
    (path : Field) (h : maze_path P sh fuel sj si = .ok (grid, dist, e, path)) :
    ¬ namesPass P ∧ grid = zeroField ∧ dist = zeroField ∧ e = (0, 0) ∧
      path = zeroField.set 0 0 1 := by
  have hh : 0 < P.height := by unfold inb at hs; omega
  have hw : 0 < P.width := by unfold inb at hs; omega
  unfold maze_path at h
  cases hd : dig P sh fuel si sj zeroField zeroField 0 with
  | panic => rw [hd] at h; cases h
  | timeout => rw [hd] at h; cases h
  | ok r =>
    obtain ⟨g, d, k1⟩ := r
    obtain ⟨hP, rfl, rfl, _⟩ := dig_ok_uncarved P sh hsh fuel si sj hs zeroField 0 g d k1 hd
    rw [hd] at h
    simp only [find_exit_zeroField P hh hw] at h
    rw [trace_path_zeroField P fuel hh hw] at h
    have h2 := Res.ok.inj h
    simp only [Prod.mk.injEq] at h2
    exact ⟨hP, h2.1.symm, h2.2.1.symm, h2.2.2.1.symm, h2.2.2.2.symm⟩

theorem names_fail_sample : ¬ namesPass (hole 0 50) := fun h => absurd h.1 (by decide)

/-- C12: for every maze the pipeline `dig`, `find_exit`, `trace_path` returns, with `cells`
the traced path in walking order, the solved rendering shows `.` on the east
(south) boundary of a cell exactly when the passage there is open and joins
two consecutive cells of the traced path; an open passage that does not is
shown blank. On this code the pipeline returns only when nothing was carved,
and then no passage is open and no boundary shows `.`. -/
theorem solved_track_on_path_edges (P : Pkg) (sh : Nat → List Int)
    (hsh : ∀ k, (sh k).Perm directions) (fuel : Nat) (sj si : Int) (hs : inb P si sj)
    (grid dist : Field) (e : Int × Int) (path : Field) (cells : List (Int × Int)) (s : String)
    (hm : maze_path P sh fuel sj si = .ok (grid, dist, e, path))
    (hc : trace_path_cells P fuel dist e.1 e.2 = .ok cells)
    (hd : draw P grid si sj e.1 e.2 path true = .ok s) :
    ∃ rows : List (List Char),
      s.data = rows.flatMap (fun r => r ++ ['\n']) ∧ (∀ r ∈ rows, '\n' ∉ r) ∧
      ∀ i j : Nat, i < P.height → j < P.width →
        (glyphAt rows (2 * i + 1) (2 * j + 2) = some '.' ↔
          (Int.land (grid i j) east ≠ 0 ∧
            Consecutive cells ((i : Int), (j : Int)) ((i : Int), (j : Int) + 1))) ∧
        (glyphAt rows (2 * i + 2) (2 * j + 1) = some '.' ↔
          (Int.land (grid i j) south ≠ 0 ∧
            Consecutive cells ((i : Int), (j : Int)) ((i : Int) + 1, (j : Int)))) ∧
        (Int.land (grid i j) east ≠ 0 →
          ¬ Consecutive cells ((i : Int), (j : Int)) ((i : Int), (j : Int) + 1) →
          glyphAt rows (2 * i + 1) (2 * j + 2) = some ' ') ∧
        (Int.land (grid i j) south ≠ 0 →
          ¬ Consecutive cells ((i : Int), (j : Int)) ((i : Int) + 1, (j : Int)) →
          glyphAt rows (2 * i + 2) (2 * j + 1) = some ' ') := by
  obtain ⟨_, rfl, rfl, rfl, rfl⟩ := maze_path_ok_inv P sh hsh fuel sj si hs grid dist e path hm
  obtain ⟨_, rfl⟩ := draw_ok_inv P zeroField si sj _ _ _ true s hd
  refine ⟨pictureRows P zeroField si sj 0 0 (zeroField.set 0 0 1) (trackGlyph true), rfl,
    fun r hr => ((pictureRows_shape P zeroField si sj 0 0 _ true).2 r hr).2, ?_⟩
  intro i j hi hj
  have he : Int.land (zeroField i j) east = 0 := land_zero_left _
  have hso : Int.land (zeroField i j) south = 0 := land_zero_left _
  have ge : eastGlyph zeroField (zeroField.set 0 0 1) (trackGlyph true) i j = '█' := by
    unfold eastGlyph; rw [if_neg (not_not.mpr he)]
  have gs : southGlyph zeroField (zeroField.set 0 0 1) (trackGlyph true) i j = '█' := by
    unfold southGlyph; rw [if_neg (not_not.mpr hso)]
  rw [glyphAt_east P zeroField si sj 0 0 _ _ i j hi hj,
    glyphAt_south P zeroField si sj 0 0 _ _ i j hi hj, ge, gs]
  refine ⟨⟨fun h => absurd h (by decide), fun h => absurd he h.1⟩,
    ⟨fun h => absurd h (by decide), fun h => absurd hso h.1⟩,
    fun h => absurd he h, fun h => absurd hso h⟩

theorem solved_track_on_path_edges_witness :
    ((∀ k, (northFirst k).Perm directions) ∧ inb (hole 0 50) 0 0 ∧
      maze_path (hole 0 50) northFirst 1 0 0 =
        .ok (zeroField, zeroField, (0, 0), zeroField.set 0 0 1) ∧
      trace_path_cells (hole 0 50) 1 zeroField 0 0 = .ok [(0, 0)] ∧
      draw (hole 0 50) zeroField 0 0 0 0 (zeroField.set 0 0 1) true =
        .ok ⟨picture (hole 0 50) zeroField 0 0 0 0 (zeroField.set 0 0 1) '.'⟩) ∧
    ∃ rows : List (List Char),
      (String.mk (picture (hole 0 50) zeroField 0 0 0 0 (zeroField.set 0 0 1) '.')).data =
        rows.flatMap (fun r => r ++ ['\n']) ∧ (∀ r ∈ rows, '\n' ∉ r) ∧
      ∀ i j : Nat, i < (hole 0 50).height → j < (hole 0 50).width →
        (glyphAt rows (2 * i + 1) (2 * j + 2) = some '.' ↔
          (Int.land (zeroField i j) east ≠ 0 ∧
            Consecutive [(0, 0)] ((i : Int), (j : Int)) ((i : Int), (j : Int) + 1))) ∧
        (glyphAt rows (2 * i + 2) (2 * j + 1) = some '.' ↔
          (Int.land (zeroField i j) south ≠ 0 ∧
            Consecutive [(0, 0)] ((i : Int), (j : Int)) ((i : Int) + 1, (j : Int)))) ∧
        (Int.land (zeroField i j) east ≠ 0 →
          ¬ Consecutive [(0, 0)] ((i : Int), (j : Int)) ((i : Int), (j : Int) + 1) →
          glyphAt rows (2 * i + 1) (2 * j + 2) = some ' ') ∧
        (Int.land (zeroField i j) south ≠ 0 →
          ¬ Consecutive [(0, 0)] ((i : Int), (j : Int)) ((i : Int) + 1, (j : Int)) →
          glyphAt rows (2 * i + 2) (2 * j + 1) = some ' ') :=
  ⟨⟨northFirst_perm, by decide,
      maze_path_names_fail (hole 0 50) names_fail_sample northFirst 1 (by decide) 0 0 (by decide),
      rfl, draw_ok _ _ _ _ _ _ _ true (zeroField_drawable _)⟩,
    solved_track_on_path_edges (hole 0 50) northFirst northFirst_perm 1 0 0 (by decide)
      zeroField zeroField (0, 0) (zeroField.set 0 0 1) [(0, 0)] _
      (maze_path_names_fail (hole 0 50) names_fail_sample northFirst 1 (by decide) 0 0
        (by decide))
      rfl (draw_ok _ _ _ _ _ _ _ true (zeroField_drawable _))⟩

theorem corridorDist_nonneg (i j : Int) : 0 ≤ corridorDist i j := by
  unfold corridorDist
  split_ifs <;> decide

theorem corridorDist_eight (i j : Int) (h : 8 ≤ corridorDist i j) : i = 1 ∧ j = 1 := by
  unfold corridorDist at h
  split_ifs at h with h1 h2 h3 h4 h5 h6 h7 h8
  all_goals first | exact h8 | (exfalso; revert h; decide)

theorem find_exit_corridor (new_i new_j : Int) :
    find_exit (hole new_i new_j) corridorDist = (1, 1) := by
  obtain ⟨_, hmax, _⟩ := find_exit_spec (hole new_i new_j) corridorDist
    (show 0 < 50 by decide) (show 0 < 50 by decide)
    (fun i j _ => corridorDist_nonneg i j)
  have h11 : inb (hole new_i new_j) 1 1 :=
    ⟨by decide, show (1 : Int) < 50 by decide, by decide, show (1 : Int) < 50 by decide⟩
  have h := hmax 1 1 h11
  have h8 : corridorDist 1 1 = 8 := by decide
  rw [h8] at h
  obtain ⟨e1, e2⟩ := corridorDist_eight _ _ h
  exact Prod.ext e1 e2

theorem trace_path_corridor (new_i new_j : Int) :
    trace_path_cells (hole new_i new_j) 8 corridorDist 1 1 =
      .ok [(1, 1), (1, 0), (2, 0), (2, 1), (2, 2), (1, 2), (0, 2), (0, 1), (0, 0)] ∧
    trace_path_walk (hole new_i new_j) 8 corridorDist 1 1 =
      .ok (((((((((zeroField.set 1 1 1).set 1 0 1).set 2 0 1).set 2 1 1).set 2 2 1).set 1 2 1).set
        0 2 1).set 0 1 1).set 0 0 1, 0, 0, 8) := by
  constructor <;> rfl

/-- C9, on the code: the arrays are 50x50 by the constants of lines 13-14, not 3x3, and
`maze` takes no argument. With start `(0, 0)` and the order
`[east, south, west, north]` at every call, `dig` on these arrays panics when the
two names pass the test of line 31 and, whatever they hold, never returns a
distance 8. With the dimensions set to 3 in the model the run is a panic
too. -/
theorem three_by_three_excluded :
    ((hole 0 0).height = 50 ∧ (hole 0 0).width = 50) ∧
    dig ⟨3, 3, 0, 0⟩ eastFirst 10 0 0 zeroField zeroField 0 = .panic ∧
    dig (hole 0 0) eastFirst 2501 0 0 zeroField zeroField 0 = .panic ∧
    ∀ (new_i new_j : Int) (fuel : Nat),
      ¬ ∃ g d k1 i j,
        dig (hole new_i new_j) eastFirst fuel 0 0 zeroField zeroField 0 = .ok (g, d, k1) ∧
          d i j = 8 := by
  refine ⟨⟨rfl, rfl⟩, rfl,
    dig_panics (hole 0 0) ⟨by decide, by decide⟩ eastFirst eastFirst_perm 2501 (by decide) 0 0
      (by decide) zeroField 0, ?_⟩
  rintro new_i new_j fuel ⟨g, d, k1, i, j, h, hd⟩
  obtain ⟨_, _, rfl, _⟩ :=
    dig_ok_uncarved (hole new_i new_j) eastFirst eastFirst_perm fuel 0 0
      ⟨le_refl _, show (0 : Int) < 50 by decide, le_refl _, show (0 : Int) < 50 by decide⟩
      zeroField 0 g d k1 h
  have h8 : (0 : Int) = 8 := hd
  exact absurd h8 (by decide)

/-- C9, amended: on the 50x50 arrays of the source, whatever the two names of line 31
hold, for the distance field of the scenario's corridor (0, 1, 2 / 7, 8, 3 /
6, 5, 4 in the top-left block, 0 elsewhere): along the corridor the distances
are 8, 7, ..., 0, each used once; `find_exit` returns `(1, 1)`, the cell whose
distance is 8; `trace_path` from it walks the corridor in 8 iterations down to
the start `(0, 0)` and marks exactly 9 cells, the cells of the block. -/
theorem corridor_scenario (new_i new_j : Int) :
    ((hole new_i new_j).height = 50 ∧ (hole new_i new_j).width = 50) ∧
    [(1, 1), (1, 0), (2, 0), (2, 1), (2, 2), (1, 2), (0, 2), (0, 1), (0, 0)].map
      (fun c : Int × Int => corridorDist c.1 c.2) = [8, 7, 6, 5, 4, 3, 2, 1, 0] ∧
    find_exit (hole new_i new_j) corridorDist = (1, 1) ∧
    trace_path_cells (hole new_i new_j) 8 corridorDist 1 1 =
      .ok [(1, 1), (1, 0), (2, 0), (2, 1), (2, 2), (1, 2), (0, 2), (0, 1), (0, 0)] ∧
    ∃ path, trace_path_walk (hole new_i new_j) 8 corridorDist 1 1 = .ok (path, 0, 0, 8) ∧
      trace_path (hole new_i new_j) 8 corridorDist 1 1 = .ok path ∧
      ∀ i j, path i j ≠ 0 ↔ (0 ≤ i ∧ i < 3 ∧ 0 ≤ j ∧ j < 3) := by
  obtain ⟨hc, hw⟩ := trace_path_corridor new_i new_j
  have hp : trace_path (hole new_i new_j) 8 corridorDist 1 1 =
      .ok (((((((((zeroField.set 1 1 1).set 1 0 1).set 2 0 1).set 2 1 1).set 2 2 1).set 1 2 1).set
        0 2 1).set 0 1 1).set 0 0 1) := by
    rw [trace_path_eq_walk, hw]; rfl
  refine ⟨⟨rfl, rfl⟩, by decide, find_exit_corridor new_i new_j, hc, _, hw, hp, ?_⟩
  intro i j
  rw [trace_path_cells_marks (hole new_i new_j) 8 corridorDist 1 1 _ _ hp hc i j]
  simp only [List.mem_cons, Prod.mk.injEq, List.mem_singleton, List.not_mem_nil, or_false]
  omega

end Maze
